import Mathlib

/-! Shallow embedding of `scripts/diff_rulekeys.py` (the RuleKey diff tool).

Python strings are modelled as Lean `String`; all primitive string
operations used by the script (`startswith`, `endswith`, slicing, `lower`,
`join`, `sorted`) are re-implemented over `String.data` so that they both
mirror the Python semantics (byte-lexicographic comparison, ASCII case
folding — all inputs handled by the tool's claims are ASCII) and evaluate
inside the kernel.

Python `dict`s are modelled as latest-first association lists: insertion
conses the new binding in front, lookup takes the first (i.e. most recent)
binding, which is exactly last-write-wins.  `OrderedDict`s (the per-object
structures) are modelled as insertion-ordered association lists.

Raising an exception is modelled with `Except`/`Option` result types.
-/

/-- Python string comparison: strict byte-lexicographic order on the
character lists (`s < t` for Python 2 `str`). -/
def charListLt : List Char → List Char → Bool
  | _, [] => false
  | [], _ :: _ => true
  | a :: as, b :: bs => a.toNat < b.toNat || (a.toNat == b.toNat && charListLt as bs)

/-- Python `s <= t` on strings, via the strict order. -/
def pyStrLe (s t : String) : Bool := !(charListLt t.data s.data)

/-- Insert into a `pyStrLe`-sorted list (auxiliary for `sortStrings`). -/
def insertSorted (v : String) : List String → List String
  | [] => [v]
  | x :: xs => if pyStrLe v x then v :: x :: xs else x :: insertSorted v xs

/-- Python `sorted` on a list of strings (insertion sort; since `pyStrLe`
is antisymmetric the result is the unique `pyStrLe`-sorted permutation,
the same list `sorted` returns). -/
def sortStrings : List String → List String
  | [] => []
  | x :: xs => insertSorted x (sortStrings xs)

/-- Python `s.startswith(p)`. -/
def pyStartsWith (s p : String) : Bool := p.data.isPrefixOf s.data

/-- Python `s.endswith(p)`. -/
def pyEndsWith (s p : String) : Bool := p.data.isSuffixOf s.data

/-- Python `s[n:]`. -/
def pyDrop (s : String) (n : Nat) : String := ⟨s.data.drop n⟩

/-- Python `s[:-n]` (drop the last `n` characters). -/
def pyDropRight (s : String) (n : Nat) : String :=
  ⟨s.data.take (s.data.length - n)⟩

/-- Python `s.lower()` (ASCII case folding). -/
def pyLower (s : String) : String := ⟨s.data.map Char.toLower⟩

/-- Python `sep.join(l)`. -/
def pyJoin (sep : String) : List String → String
  | [] => ""
  | [x] => x
  | x :: y :: xs => x ++ sep ++ pyJoin sep (y :: xs)

/-- Membership test used for Python `in` on lists standing for sets. -/
def pyMem (v : String) (l : List String) : Bool := decide (v ∈ l)

/-- Python 2 `map(None, a, b)` on two string lists: positional pairing,
the shorter side padded with `None`. -/
def padPairs (a b : List String) : List (Option String × Option String) :=
  List.zip (a.map some ++ List.replicate (b.length - a.length) none)
    (b.map some ++ List.replicate (a.length - b.length) none)

/-- Embeds `left_not_in_order`: first components of the pairs that are not
equal, in order. -/
def remainderLeft (ps : List (Option String × Option String)) : List String :=
  ps.foldr (fun p acc =>
    if p.1 = p.2 then acc else
      match p.1 with | some v => v :: acc | none => acc) []

/-- Embeds `right_not_in_order`: second components of the pairs that are not
equal, in order. -/
def remainderRight (ps : List (Option String × Option String)) : List String :=
  ps.foldr (fun p acc =>
    if p.1 = p.2 then acc else
      match p.2 with | some v => v :: acc | none => acc) []

/-! Part: KeyValueDiff (`class KeyValueDiff`)

The differ object accumulates paired left/right values with `append`; its
state is the pair of lists `(self._left, self._right)`.  `diff()` is a pure
function of that state (plus the two formats) returning the report lines,
and as a side effect fills `self._interesting_paths`; we return the paths
alongside the report. -/

/-- Embeds `KeyValueDiff.ORDER_ONLY`, instantiated. -/
def orderOnlyMsg (left right : String) : String :=
  "Only order of entries differs: [" ++ left ++ "] vs [" ++ right ++ "]."

/-- Embeds `KeyValueDiff.ORDER_ONLY_REMAINING`, instantiated. -/
def orderOnlyRemainingMsg (left right : String) : String :=
  "Only order of remaining entries differs: [" ++ left ++ "] vs [" ++ right ++ "]."

/-- Embeds `KeyValueDiff.ORDER_REPS_REMAINING`, instantiated. -/
def orderRepsRemainingMsg (left right : String) : String :=
  "Order and repetition count of remaining entries differs: [" ++ left ++
    "] vs [" ++ right ++ "]."

/-- Embeds `KeyValueDiff.ORDER_AND_CASE_ONLY`. -/
def orderAndCaseOnlyMsg : String :=
  "Only order and letter casing (Upper Case vs lower case) of entries differs:"

/-- The default left format `'-[%s]'` applied to a value. -/
def defaultLeftFormat (v : String) : String := "-[" ++ v ++ "]"

/-- The default right format `'+[%s]'` applied to a value. -/
def defaultRightFormat (v : String) : String := "+[" ++ v ++ "]"

/-- Embeds `PATH_VALUE_REGEX = re.compile(r'path\(([^:]+):\w+\)')` together with
`.search`: scan left to right for the first position where the literal
`path(` is followed by at least one non-`:` character, a `:`, at least one
word character and a `)`; return the first captured group.  Both
quantifiers are effectively deterministic here because `[^:]+` cannot
consume the `:` and `\w` does not match `)`. -/
def isWordChar (c : Char) : Bool :=
  (('a'.toNat ≤ c.toNat && c.toNat ≤ 'z'.toNat) ||
   ('A'.toNat ≤ c.toNat && c.toNat ≤ 'Z'.toNat) ||
   ('0'.toNat ≤ c.toNat && c.toNat ≤ '9'.toNat) ||
   c.toNat == '_'.toNat)

/-- After the literal `path(`: split at the first `:`; require a nonempty
group before it, then a nonempty run of word characters ending at `)`. -/
def pathTailMatch (cs : List Char) : Option (List Char) :=
  match cs.findIdx? (· == ':') with
  | none => none
  | some i =>
    if i == 0 then none
    else
      match (cs.drop (i + 1)).findIdx? (fun c => !(isWordChar c)) with
      | none => none
      | some j => if j == 0 then none
        else if (cs.drop (i + 1)).get? j == some ')' then some (cs.take i)
        else none

/-- Try matching the `path(...)` pattern at each successive start position. -/
def pathSearchGo : List Char → Option (List Char)
  | [] => none
  | c :: cs =>
    match (if ("path(".data.isPrefixOf (c :: cs)) then
             pathTailMatch ((c :: cs).drop 5) else none) with
    | some g => some g
    | none => pathSearchGo cs

/-- Embeds `KeyValueDiff._filterPathValue`. -/
def filterPathValue (value : String) : Option String :=
  (pathSearchGo value.data).map (fun g => ⟨g⟩)

/-- Embeds `left_lower_index` / `right_lower_index`: dictionary from lower-cased
value to original value, last binding winning. -/
def lowerIndex (l : List String) : List (String × String) :=
  l.foldl (fun m v => (pyLower v, v) :: m) []

/-- The distinct lower-cased values of a list (the key set of its
`lower_index` dictionary). -/
def lowerKeysOf (l : List String) : List String := (l.map pyLower).dedup

/-- Embeds `set(left_lower_index.keys()) == set(right_lower_index.keys())`. -/
def caseSetsEqual (left right : List String) : Bool :=
  (lowerKeysOf left).all (pyMem · (lowerKeysOf right)) &&
    (lowerKeysOf right).all (pyMem · (lowerKeysOf left))

/-- The `differences` loop of the order-and-case-only branch. -/
def caseDifferences (lf rf : String → String) (left right : List String) :
    List String :=
  (sortStrings (lowerKeysOf left)).foldr (fun k acc =>
    if ((lowerIndex left).lookup k) ≠ ((lowerIndex right).lookup k) then
      lf (((lowerIndex left).lookup k).getD "") ::
        rf (((lowerIndex right).lookup k).getD "") :: acc
    else acc) []

/-- Embeds `left_only = left_set.difference(right_set)` (as a dedup'd list). -/
def leftOnlySet (left right : List String) : List String :=
  (left.filter (fun v => !(pyMem v right))).dedup

/-- Embeds `right_only = right_set.difference(left_set)` (as a dedup'd list). -/
def rightOnlySet (left right : List String) : List String :=
  (right.filter (fun v => !(pyMem v left))).dedup

/-- Embeds `left_common = filter(lambda i: i not in left_only, self._left)`. -/
def leftCommonList (left right : List String) : List String :=
  left.filter (fun v => !(pyMem v (leftOnlySet left right)))

/-- Embeds `right_common = filter(lambda i: i not in right_only, self._right)`. -/
def rightCommonList (left right : List String) : List String :=
  right.filter (fun v => !(pyMem v (rightOnlySet left right)))

/-- Embeds `map(None, left_common, right_common)`. -/
def commonPairs (left right : List String) : List (Option String × Option String) :=
  padPairs (leftCommonList left right) (rightCommonList left right)

/-- The report lines of the general (fourth) case of `KeyValueDiff.diff`. -/
def generalResult (lf rf : String → String) (left right : List String) :
    List String :=
  (sortStrings (leftOnlySet left right)).map lf ++
    (sortStrings (rightOnlySet left right)).map rf ++
    (if (remainderLeft (commonPairs left right)).length > 0 then
      [(if (remainderLeft (commonPairs left right)).length =
            (remainderRight (commonPairs left right)).length then
          orderOnlyRemainingMsg else orderRepsRemainingMsg)
        (pyJoin ", " (remainderLeft (commonPairs left right)))
        (pyJoin ", " (remainderRight (commonPairs left right)))]
     else [])

/-- The interesting paths collected in the general case
(`self._interesting_paths.update(...)` over `left_only.union(right_only)`). -/
def generalPaths (left right : List String) : List String :=
  ((leftOnlySet left right) ++
    (rightOnlySet left right).filter
      (fun v => !(pyMem v (leftOnlySet left right)))).filterMap filterPathValue

/-- The four-way classification of `KeyValueDiff.diff`, returning the
report lines together with the interesting paths collected in the general
case (`self._interesting_paths`). -/
def kvdDiff (lf rf : String → String) (left right : List String) :
    List String × List String :=
  if left = right then (["No changes"], [])
  else if sortStrings left = sortStrings right then
    ([orderOnlyMsg (pyJoin ", " left) (pyJoin ", " right)], [])
  else if caseSetsEqual left right then
    (orderAndCaseOnlyMsg :: caseDifferences lf rf left right, [])
  else
    (generalResult lf rf left right, generalPaths left right)

/-- Report component of `KeyValueDiff.diff` with the default formats. -/
def kvdReport (left right : List String) : List String :=
  (kvdDiff defaultLeftFormat defaultRightFormat left right).1



/-! Part: RuleKeyStructureInfo (`class RuleKeyStructureInfo`)

An `ObjectStructure` is an `OrderedDict` from field name (possibly the
Python `None` produced for values preceding any `key(...)` marker, hence
`Option String`) to the list of values: an insertion-ordered association
list with distinct keys. -/

/-- An object structure: ordered mapping field name → field values. -/
def Struct : Type := List (Option String × List String)

instance : DecidableEq Struct := by
  unfold Struct
  exact inferInstance

/-- Look a field name up in a structure (`structure[key]` / `.get(key)`). -/
def lookupStruct (s : Struct) (k : Option String) : Option (List String) :=
  match s.find? (fun e => e.1 == k) with
  | some e => some e.2
  | none => none

/-- The ordered key list of a structure (`structure.keys()`). -/
def structKeys (s : Struct) : List (Option String) := s.map Prod.fst

/-- Embeds `RuleKeyStructureInfo._extractRuleKeyRef`: a value is a reference iff
it starts with `ruleKey(sha1=` and ends with `)`; the identifier between
the two is extracted. -/
def extractRuleKeyRef (value : String) : Option String :=
  if pyEndsWith value ")" && pyStartsWith value "ruleKey(sha1=" then
    some (pyDropRight (pyDrop value 13) 1)
  else none

/-- Embeds `RuleKeyStructureInfo._nameFromStruct`: if both `.name` and `.type`
fields are present, the first `.name` value with an optional
`string("...")` wrapper stripped.  (The source indexes `[0]` into the
value list; parsed structures always carry nonempty value lists, which the
relevant theorems assume.) -/
def nameFromStruct (s : Struct) : Option String :=
  if (lookupStruct s (some ".name")).isSome &&
      (lookupStruct s (some ".type")).isSome then
    ((lookupStruct s (some ".name")).getD []).head?.map (fun n =>
      if pyStartsWith n "string(\"" then pyDropRight (pyDrop n 8) 2 else n)
  else none

/-- The queryable state of one parsed log: the `_key_to_struct` and
`_name_to_key` dictionaries (latest-first association lists, lookup takes
the most recent binding — Python's last-write-wins). -/
structure Info where
  keyToStruct : List (String × Struct)
  nameToKey : List (String × String)

/-- Embeds `RuleKeyStructureInfo.getByKey` (`dict.get`: absent → `None`). -/
def getByKey (info : Info) (key : String) : Option Struct :=
  info.keyToStruct.lookup key

/-- Embeds `RuleKeyStructureInfo.getNameForKey`, generalized to the `Option`al
keys the traversal feeds it (`getByKey(None)` is `None` in Python). -/
def getNameForKey (info : Info) (key : Option String) : Option String :=
  match key with
  | none => none
  | some k =>
    match getByKey info k with
    | none => none
    | some s => nameFromStruct s

/-- Embeds `RuleKeyStructureInfo.getKeyForName`. -/
def getKeyForName (info : Info) (name : String) : Option String :=
  info.nameToKey.lookup name

/-- Embeds `RuleKeyStructureInfo.getRuleKeyRefs`. -/
def getRuleKeyRefs (values : List String) : List (String × Option String) :=
  values.map (fun v => (v, extractRuleKeyRef v))

/-- Loop body of `RuleKeyStructureInfo._makeKeyToStructureMap`: fold the
entries into the map, failing (`assert`) when a key reappears with a
structure unequal to its current binding. -/
def mkKeyToStructGo (acc : List (String × Struct)) :
    List (String × Struct) → Option (List (String × Struct))
  | [] => some acc
  | (topKey, struct) :: rest =>
    match acc.lookup topKey with
    | some prev =>
      if struct = prev then mkKeyToStructGo ((topKey, struct) :: acc) rest
      else none
    | none => mkKeyToStructGo ((topKey, struct) :: acc) rest

/-- Embeds `RuleKeyStructureInfo._makeKeyToStructureMap`; `none` models the
`AssertionError` on an identifier re-parsed with a differing structure. -/
def makeKeyToStructureMap (entries : List (String × Struct)) :
    Option (List (String × Struct)) :=
  mkKeyToStructGo [] entries

/-- Embeds `RuleKeyStructureInfo._makeNameToKeyMap`. -/
def makeNameToKeyMap (entries : List (String × Struct)) :
    List (String × String) :=
  entries.foldl (fun acc e =>
    match nameFromStruct e.2 with
    | none => acc
    | some name => (name, e.1) :: acc) []

/-- Build an `Info` from parsed entries (the `__init__` wiring of
`_makeKeyToStructureMap` and `_makeNameToKeyMap`); fails when the
key-to-structure map does. -/
def mkInfo (entries : List (String × Struct)) : Option Info :=
  (makeKeyToStructureMap entries).map (fun m =>
    { keyToStruct := m, nameToKey := makeNameToKeyMap entries })

/-! Part: Structural diff traversal (`diffInternal`, `diffAndReturnSeen`,
`diff`)

A worklist item is `(label, (leftKey, rightKey))`. -/

/-- An identifier pair `(leftKey, rightKey)`. -/
abbrev KeyPair := String × String

/-- A worklist item `(label, (leftKey, rightKey))`. -/
abbrev WorkItem := String × KeyPair

/-- Embeds `swap_entries_in_list(l, i, j)` (the tuple on the right-hand side of
the Python swap is evaluated before either store). -/
def swapEntries (l : List (String × Option String)) (i j : Nat) :
    List (String × Option String) :=
  (l.set i (l.getD j ("", none))).set j (l.getD i ("", none))

/-- One iteration of the dependency-alignment loop of `diffInternal`,
folded over the left indices; the state is the (possibly re-ordered)
right-hand list together with the `did_align_for_deps` flag. -/
def alignDepsGo (li ri : Info) (lwk : List (String × Option String)) :
    List Nat → List (String × Option String) × Bool →
    List (String × Option String) × Bool
  | [], st => st
  | i :: rest, (rwk, did) =>
    match lwk.get? i with
    | none => alignDepsGo li ri lwk rest (rwk, did)
    | some lp =>
      match getNameForKey li lp.2 with
      | none => alignDepsGo li ri lwk rest (rwk, did)
      | some leftName =>
        if rwk.length ≤ i then alignDepsGo li ri lwk rest (rwk, did)
        else
          match rwk.findIdx? (fun e => getNameForKey ri e.2 == some leftName) with
          | none => alignDepsGo li ri lwk rest (rwk, did)
          | some j =>
            if j ≠ i then alignDepsGo li ri lwk rest (swapEntries rwk j i, true)
            else alignDepsGo li ri lwk rest (rwk, did)

/-- The dependency-alignment pass of `diffInternal` for one `...Deps`
field: for each left reference with a resolvable name, find the first
right reference with the same name and swap it into the left position. -/
def alignDeps (li ri : Info) (lwk rwk : List (String × Option String)) :
    List (String × Option String) × Bool :=
  alignDepsGo li ri lwk (List.range lwk.length) (rwk, false)

/-- Embeds `key.endswith(('Deps', 'deps'))` — the (case-sensitive) test deciding
whether the dependency-alignment pass runs for a field name. -/
def depsSuffixCondition (k : String) : Bool :=
  pyEndsWith k "Deps" || pyEndsWith k "deps"

/-- Python 2 `map(None, a, b)`: positional pairing, the shorter side
padded with `None`. -/
def zipPad (a b : List (String × Option String)) :
    List (Option (String × Option String) × Option (String × Option String)) :=
  List.zip (a.map some ++ List.replicate (b.length - a.length) none)
    (b.map some ++ List.replicate (a.length - b.length) none)

/-- Embeds `'"%s"@%s' % (name, value)` when the name is truthy, else the value. -/
def annotateValue (name : Option String) (v : String) : String :=
  match name with
  | some n => if n = "" then v else "\"" ++ n ++ "\"@" ++ v
  | none => v

/-- Outcome of one iteration of the value-pair loop in `diffInternal`. -/
inductive PairStep
  /-- The raw values already match (or a `continue` branch fired). -/
  | skip
  /-- Embeds `AttributeError`: `None.keys()` on a dangling reference. -/
  | raised
  /-- Deferred to sub-object recursion (`changed_key_pairs_with_labels_for_key`). -/
  | changed (it : WorkItem)
  /-- Annotated values handed to the field's `KeyValueDiff`. -/
  | value (p : String × String)

/-- The body of the `for l, r in both_with_keys:` loop of `diffInternal`. -/
def pairStep (label k : String) (li ri : Info)
    (l r : Option (String × Option String)) : PairStep :=
  let lp := l.getD ("<missing>", none)
  let rp := r.getD ("<missing>", none)
  if lp.1 = rp.1 then .skip
  else
    let leftName := getNameForKey li lp.2
    let rightName := getNameForKey ri rp.2
    match lp.2, rp.2 with
    | some leftKey, some rightKey =>
      if leftName = rightName ∧ leftName.isSome then
        .changed (leftName.getD "", leftKey, rightKey)
      else if leftName = none ∧ rightName = none then
        match getByKey li leftKey, getByKey ri rightKey with
        | some ls2, some rs2 =>
          if structKeys ls2 = structKeys rs2 then
            .changed (label ++ "->" ++ k, leftKey, rightKey)
          else .value (annotateValue leftName lp.1, annotateValue rightName rp.1)
        | _, _ => .raised
      else .value (annotateValue leftName lp.1, annotateValue rightName rp.1)
    | _, _ => .value (annotateValue leftName lp.1, annotateValue rightName rp.1)

/-- The value-pair loop of `diffInternal` for one field: accumulates the
pairs handed to the field's `KeyValueDiff` and the deferred reference
pairs; `.error` models the `AttributeError` escaping the loop. -/
def processPairs (label k : String) (li ri : Info) :
    List (Option (String × Option String) × Option (String × Option String)) →
    Except Unit (List (String × String) × List WorkItem)
  | [] => .ok ([], [])
  | (l, r) :: rest =>
    match pairStep label k li ri l r with
    | .raised => .error ()
    | .skip => processPairs label k li ri rest
    | .changed it =>
      (processPairs label k li ri rest).map (fun pc => (pc.1, it :: pc.2))
    | .value p =>
      (processPairs label k li ri rest).map (fun pc => (p :: pc.1, pc.2))

/-- The whole per-field body of `diffInternal`'s key loop: alignment (for
`...Deps` fields) followed by the value-pair loop; returns the alignment
report line, the `KeyValueDiff` pairs and the deferred reference pairs. -/
def processKey (label : String) (li : Info) (ls : Struct) (ri : Info)
    (rs : Struct) (k : String) :
    Except Unit (List String × List (String × String) × List WorkItem) :=
  let leftValues := (lookupStruct ls (some k)).getD []
  let rightValues := (lookupStruct rs (some k)).getD []
  let lwk := getRuleKeyRefs leftValues
  let rwk := getRuleKeyRefs rightValues
  let ar := if depsSuffixCondition k then alignDeps li ri lwk rwk
    else (rwk, false)
  let alignLines :=
    if ar.2 then ["  (" ++ k ++ "): order of deps was name-aligned."] else []
  (processPairs label k li ri (zipPad lwk ar.1)).map (fun pc => (alignLines, pc))

/-- Insert into a list of per-field `KeyValueDiff` states sorted by field
name (auxiliary for the `sorted(changed_key_pairs_with_values.keys())`
loop). -/
def insertSortedByKey (v : String × List (String × String)) :
    List (String × List (String × String)) →
    List (String × List (String × String))
  | [] => [v]
  | x :: xs =>
    if pyStrLe v.1 x.1 then v :: x :: xs else x :: insertSortedByKey v xs

/-- Sort the per-field `KeyValueDiff` states by field name. -/
def sortByKeyPairs : List (String × List (String × String)) →
    List (String × List (String × String))
  | [] => []
  | x :: xs => insertSortedByKey x (sortByKeyPairs xs)

/-- The key loop of `diffInternal` with exception propagation: run the
per-key body over every key in order, the first exception winning. -/
def mapMExcept {α β : Type} (f : α → Except Unit β) : List α → Except Unit (List β)
  | [] => .ok []
  | a :: as =>
    match f a with
    | .error e => .error e
    | .ok b =>
      match mapMExcept f as with
      | .error e => .error e
      | .ok bs => .ok (b :: bs)

/-- The canonical iteration order over `set(left_s.keys()) ∪
set(right_s.keys())`: left keys first, then right-only keys (Python
iterates the hash set in unspecified order), `None` skipped by the loop's
first `continue`. -/
def unionKeys (ls rs : Struct) : List (Option String) :=
  (structKeys ls ++ structKeys rs).dedup

/-- The lines of the verbose `changed because of` branch, which formats
the leaked loop variable `key`; `.error` models the `TypeError` raised
when that last iterated key is Python `None`. -/
def verboseLine (ls rs : Struct) (changed : List WorkItem) (verbose : Bool) :
    Except Unit (List String) :=
  if changed ≠ [] ∧ verbose then
    match (unionKeys ls rs).getLast? with
    | some (some lastK) =>
      .ok ["  (" ++ lastK ++ ") : changed because of " ++
        pyJoin "," (sortStrings ((changed.dedup).map (fun t => t.1)))]
    | some none => .error ()
    | none => .ok []
  else .ok []

/-- Embeds `diffInternal`.  `pathReport` abstracts `reportOnInterestingPaths`,
which reads the filesystem.  Returns
`(report, changed_key_pairs_with_labels)`; `.error` models the exceptions
(`AttributeError` on a dangling reference; `TypeError` in the verbose
branch). -/
def diffInternal (label : String) (ls : Struct) (li : Info) (rs : Struct)
    (ri : Info) (verbose : Bool) (lf rf : String → String)
    (checkPaths : Bool) (pathReport : List String → List String) :
    Except Unit (List String × List WorkItem) :=
  match mapMExcept (fun k =>
      (processKey label li ls ri rs k).map (fun r => (k, r)))
      ((unionKeys ls rs).filterMap id) with
  | .error e => .error e
  | .ok perKey =>
    let alignLines := (perKey.map (fun kr => kr.2.1)).flatten
    let kvdKeys := perKey.filterMap (fun kr =>
      if kr.2.2.1 ≠ [] then some (kr.1, kr.2.2.1) else none)
    let kvdKeysSorted := sortByKeyPairs kvdKeys
    let sections := (kvdKeysSorted.map (fun kp =>
      ("  (" ++ kp.1 ++ "):") ::
        ((kvdDiff lf rf (kp.2.map Prod.fst) (kp.2.map Prod.snd)).1.map
          (fun line => "    " ++ line)))).flatten
    let interestingPaths := (kvdKeysSorted.map (fun kp =>
      (kvdDiff lf rf (kp.2.map Prod.fst) (kp.2.map Prod.snd)).2)).flatten
    let changed := (perKey.map (fun kr => kr.2.2.2)).flatten
    match verboseLine ls rs changed verbose with
    | .error e => .error e
    | .ok verbosePart =>
      let report := alignLines ++ sections ++ verbosePart ++
        (if checkPaths ∧ interestingPaths ≠ [] then
          "Information on paths the script has seen:" ::
            pathReport interestingPaths
         else [])
      .ok (if report ≠ [] then
        ("Change details for [" ++ label ++ "]") :: report else [], changed)

/-- Lexicographic order on worklist items, i.e. Python's tuple order on
`(label, (left_key, right_key))` (auxiliary for
`sorted(changed_key_pairs_with_labels)`). -/
def itemLe (a b : WorkItem) : Bool :=
  if charListLt a.1.data b.1.data then true
  else if charListLt b.1.data a.1.data then false
  else if charListLt a.2.1.data b.2.1.data then true
  else if charListLt b.2.1.data a.2.1.data then false
  else pyStrLe a.2.2 b.2.2

/-- Insert into an `itemLe`-sorted list. -/
def insertSortedItem (v : WorkItem) : List WorkItem → List WorkItem
  | [] => [v]
  | x :: xs => if itemLe v x then v :: x :: xs else x :: insertSortedItem v xs

/-- Embeds `sorted` on worklist items. -/
def sortItems : List WorkItem → List WorkItem
  | [] => []
  | x :: xs => insertSortedItem x (sortItems xs)

/-- The enqueueing loop of `diffAndReturnSeen`: skip pairs already seen,
otherwise mark seen (before enqueueing) and append to the queue. -/
def enqueueChanged : List WorkItem → List WorkItem → Finset KeyPair →
    List WorkItem × Finset KeyPair
  | [], q, s => (q, s)
  | it :: rest, q, s =>
    if it.2 ∈ s then enqueueChanged rest q s
    else enqueueChanged rest (q ++ [it]) (insert it.2 s)

/-- The `while len(queue) > 0` loop of `diffAndReturnSeen`, with explicit
fuel; `none` means the fuel ran out with a nonempty worklist, `some`
carries the normal result (report, visited pairs, final seen set) or the
propagated exception. -/
def diffLoop (li ri : Info) (verbose : Bool) (lf rf : String → String)
    (checkPaths : Bool) (pathReport : List String → List String) :
    Nat → List WorkItem → Finset KeyPair → List String → List KeyPair →
    Option (Except Unit (List String × List KeyPair × Finset KeyPair))
  | 0, queue, seen, result, visited =>
    if queue.isEmpty then some (.ok (result, visited, seen)) else none
  | _ + 1, [], seen, result, visited => some (.ok (result, visited, seen))
  | fuel + 1, it :: queue, seen, result, visited =>
    match getByKey li it.2.1, getByKey ri it.2.2 with
    | some ls, some rs =>
      (match diffInternal it.1 ls li rs ri verbose lf rf checkPaths pathReport with
       | .error e => some (.error e)
       | .ok (report, changed) =>
         let qs := enqueueChanged (sortItems changed.dedup) queue seen
         diffLoop li ri verbose lf rf checkPaths pathReport fuel qs.1 qs.2
           (result ++ report) (visited ++ [it.2]))
    | _, _ => some (.error ())

/-- All reference identifiers extractable from a structure's values. -/
def structRefs (s : Struct) : Finset String :=
  s.foldr (fun e acc => (e.2.filterMap extractRuleKeyRef).toFinset ∪ acc) ∅

/-- All reference identifiers extractable from any structure of an index. -/
def infoRefs (info : Info) : Finset String :=
  info.keyToStruct.foldr (fun e acc => structRefs e.2 ∪ acc) ∅

/-- Every reference pair the traversal can ever enqueue lies in this
finite set. -/
def pairUniverse (li ri : Info) : Finset KeyPair :=
  infoRefs li ×ˢ infoRefs ri

/-- Fuel sufficient for `diffLoop` to drain its worklist: two steps for
every never-seen enqueueable pair, one per starting item, plus one. -/
def diffFuel (li ri : Info) (starting : List WorkItem)
    (seen : Finset KeyPair) : Nat :=
  2 * (pairUniverse li ri \ seen).card + starting.length + 1

/-- Embeds `diffAndReturnSeen`: run the BFS from the starting items with the
caller's shared `seen_keys` set.  The optional format tuple defaults to
the `KeyValueDiff` defaults exactly as in the source. -/
def diffAndReturnSeen (starting : List WorkItem) (li ri : Info)
    (verbose : Bool)
    (ft : Option (Option (String → String) × Option (String → String)))
    (checkPaths : Bool) (pathReport : List String → List String)
    (seen : Finset KeyPair) :
    Option (Except Unit (List String × List KeyPair × Finset KeyPair)) :=
  let ftv := ft.getD (none, none)
  diffLoop li ri verbose (ftv.1.getD defaultLeftFormat)
    (ftv.2.getD defaultRightFormat) checkPaths pathReport
    (diffFuel li ri starting seen) starting seen [] []

/-- The exceptions `diff` can surface. -/
inductive DiffError
  /-- Embeds `KeyError` with its message (requested name absent from a log). -/
  | keyError (msg : String)
  /-- Embeds `AttributeError`/`TypeError` propagated out of `diffInternal`. -/
  | attrError
  /-- Artifact of the fuel embedding; never produced with `diffFuel`. -/
  | fuelExhausted

/-- Embeds `diff(name, left_info, right_info, ...)`. -/
def diff (name : String) (li ri : Info) (verbose : Bool)
    (ft : Option (Option (String → String) × Option (String → String)))
    (checkPaths : Bool) (pathReport : List String → List String) :
    Except DiffError (List String) :=
  match getKeyForName li name with
  | none => .error (.keyError ("Left log does not contain " ++ name))
  | some leftKey =>
    match getKeyForName ri name with
    | none => .error (.keyError ("Right log does not contain " ++ name))
    | some rightKey =>
      match diffAndReturnSeen [(name, leftKey, rightKey)] li ri verbose ft
          checkPaths pathReport ∅ with
      | none => .error .fuelExhausted
      | some (.error _) => .error .attrError
      | some (.ok (result, _, _)) =>
        if result = [] ∧ leftKey ≠ rightKey then
          .ok ["I don't know why RuleKeys for " ++ name ++ " do not match."]
        else .ok result

deriving instance DecidableEq for Except

deriving instance DecidableEq for DiffError

/-! Part: Concrete inputs used by witnesses and counterexamples -/

/-- Wire up an `Info` from entries the way `__init__` composes
`_makeKeyToStructureMap` and `_makeNameToKeyMap` (for consistent entry
lists, where the map construction succeeds). -/
def infoOfEntries (entries : List (String × Struct)) : Info :=
  { keyToStruct := (makeKeyToStructureMap entries).getD [],
    nameToKey := makeNameToKeyMap entries }

/-- A path reporter that reports nothing (no claim exercises
`check_paths`; `reportOnInterestingPaths` reads the filesystem and is kept
abstract). -/
def noPaths : List String → List String := fun _ => []

/-- Cyclic reference graph, left log, object `a1`: references `b1` and
carries a differing literal field `g`. -/
def cycSLA : Struct := [(some "f", ["ruleKey(sha1=b1)"]), (some "g", ["1"])]

/-- Cyclic reference graph, left log, object `b1`: references `a1` back. -/
def cycSLB : Struct := [(some "f", ["ruleKey(sha1=a1)"])]

/-- Cyclic reference graph, right log, object `a2`. -/
def cycSRA : Struct := [(some "f", ["ruleKey(sha1=b2)"]), (some "g", ["2"])]

/-- Cyclic reference graph, right log, object `b2`. -/
def cycSRB : Struct := [(some "f", ["ruleKey(sha1=a2)"])]

/-- Left index of the cyclic example. -/
def cycLeftInfo : Info := infoOfEntries [("a1", cycSLA), ("b1", cycSLB)]

/-- Right index of the cyclic example. -/
def cycRightInfo : Info := infoOfEntries [("a2", cycSRA), ("b2", cycSRB)]

/-- Left structure with a dangling reference (`x1` is in no index). -/
def dangSL : Struct := [(some "f", ["ruleKey(sha1=x1)"])]

/-- Right structure with a dangling reference (`x2` is in no index). -/
def dangSR : Struct := [(some "f", ["ruleKey(sha1=x2)"])]

/-- Left index of the dangling-reference example. -/
def dangLeftInfo : Info := infoOfEntries [("da1", dangSL)]

/-- Right index of the dangling-reference example. -/
def dangRightInfo : Info := infoOfEntries [("da2", dangSR)]

/-- A named structure, byte-identical in both logs under different
identifiers. -/
def identS : Struct :=
  [(some ".name", ["string(\"foo\")"]), (some ".type", ["string(\"t\")"]),
   (some "k", ["v"])]

/-- Left index mapping `foo` to `k1 ↦ identS`. -/
def identLeftInfo : Info := infoOfEntries [("k1", identS)]

/-- Right index mapping `foo` to `k2 ↦ identS`. -/
def identRightInfo : Info := infoOfEntries [("k2", identS)]

/-- A referenced object named `A`. -/
def depsNA : Struct :=
  [(some ".name", ["string(\"A\")"]), (some ".type", ["string(\"t\")"])]

/-- A referenced object named `B`. -/
def depsNB : Struct :=
  [(some ".name", ["string(\"B\")"]), (some ".type", ["string(\"t\")"])]

/-- Left parent whose `DEPS` field references `A` then `B`. -/
def depsPL : Struct := [(some "DEPS", ["ruleKey(sha1=al)", "ruleKey(sha1=bl)"])]

/-- Right parent whose `DEPS` field references `B` then `A` (swapped). -/
def depsPR : Struct := [(some "DEPS", ["ruleKey(sha1=br)", "ruleKey(sha1=ar)"])]

/-- Left index of the `DEPS` example. -/
def depsLeftInfo : Info :=
  infoOfEntries [("pl", depsPL), ("al", depsNA), ("bl", depsNB)]

/-- Right index of the `DEPS` example. -/
def depsRightInfo : Info :=
  infoOfEntries [("pr", depsPR), ("ar", depsNA), ("br", depsNB)]

/-- Modelled from the amended claim: the per-field body of `diffInternal`
with the dependency-alignment pass skipped, so the right-side value list
is never permuted before positional comparison. -/
def processKeyNoAlign (label : String) (li : Info) (ls : Struct) (ri : Info)
    (rs : Struct) (k : String) :
    Except Unit (List String × List (String × String) × List WorkItem) :=
  (processPairs label k li ri
    (zipPad (getRuleKeyRefs ((lookupStruct ls (some k)).getD []))
      (getRuleKeyRefs ((lookupStruct rs (some k)).getD [])))).map
    (fun pc => ([], pc))

/-- Report component of a `diffInternal` outcome (empty when it raised). -/
def internalReport (r : Except Unit (List String × List WorkItem)) : List String :=
  match r with
  | .ok (rep, _) => rep
  | .error _ => []

/-- A structure with a single literal-valued field (no references). -/
def plainS : Struct := [(some "k", ["x"])]

/-- One of two unequal structures re-parsed under one identifier. -/
def wsA : Struct := [(some "x", ["1"])]

/-- One of two unequal structures re-parsed under one identifier. -/
def wsB : Struct := [(some "x", ["2"])]

/-- Visited-pairs component of a `diffAndReturnSeen` outcome. -/
def runVisited
    (r : Option (Except Unit (List String × List KeyPair × Finset KeyPair))) :
    List KeyPair :=
  match r with
  | some (.ok (_, vis, _)) => vis
  | _ => []

/-- Report component of a `diffAndReturnSeen` outcome. -/
def runReport
    (r : Option (Except Unit (List String × List KeyPair × Finset KeyPair))) :
    List String :=
  match r with
  | some (.ok (res, _, _)) => res
  | _ => []

theorem charToNat_inj {a b : Char} (h : a.toNat = b.toNat) : a = b := by
  apply Char.ext
  exact UInt32.toNat.inj h

theorem charListLt_irrefl : ∀ a : List Char, charListLt a a = false := by
  intro a
  induction a with
  | nil => rfl
  | cons x xs ih => simp [charListLt, ih]

theorem charListLt_asymm : ∀ (a b : List Char),
    charListLt a b = true → charListLt b a = false := by
  intro a
  induction a with
  | nil =>
    intro b h
    cases b with
    | nil => simp [charListLt] at h
    | cons y ys => rfl
  | cons x xs ih =>
    intro b h
    cases b with
    | nil => simp [charListLt] at h
    | cons y ys =>
      simp only [charListLt, Bool.or_eq_true, Bool.and_eq_true,
        decide_eq_true_eq, beq_iff_eq] at h
      simp only [charListLt, Bool.or_eq_false_iff, Bool.and_eq_false_iff,
        decide_eq_false_iff_not]
      rcases h with h | ⟨he, hlt⟩
      · constructor
        · omega
        · left
          simp only [beq_eq_false_iff_ne, ne_eq]
          omega
      · constructor
        · omega
        · right
          exact ih ys hlt

theorem charListLt_conn : ∀ (a b : List Char),
    charListLt a b = false → charListLt b a = false → a = b := by
  intro a
  induction a with
  | nil =>
    intro b h1 _
    cases b with
    | nil => rfl
    | cons y ys => simp [charListLt] at h1
  | cons x xs ih =>
    intro b h1 h2
    cases b with
    | nil => simp [charListLt] at h2
    | cons y ys =>
      simp only [charListLt, Bool.or_eq_false_iff, Bool.and_eq_false_iff,
        decide_eq_false_iff_not, beq_eq_false_iff_ne, ne_eq] at h1 h2
      rcases h1 with ⟨hx, h1⟩
      rcases h2 with ⟨hy, h2⟩
      have hxy : x.toNat = y.toNat := by omega
      rcases h1 with h1 | h1
      · exact absurd hxy h1
      · rcases h2 with h2 | h2
        · exact absurd hxy.symm h2
        · rw [charToNat_inj hxy, ih ys h1 h2]

theorem charListLt_trans : ∀ (a b c : List Char),
    charListLt a b = true → charListLt b c = true → charListLt a c = true := by
  intro a
  induction a with
  | nil =>
    intro b c h1 h2
    cases c with
    | nil =>
      cases b with
      | nil => simp [charListLt] at h1
      | cons y ys => simp [charListLt] at h2
    | cons z zs => rfl
  | cons x xs ih =>
    intro b c h1 h2
    cases b with
    | nil => simp [charListLt] at h1
    | cons y ys =>
      cases c with
      | nil => simp [charListLt] at h2
      | cons z zs =>
        simp only [charListLt, Bool.or_eq_true, Bool.and_eq_true,
          decide_eq_true_eq, beq_iff_eq] at h1 h2 ⊢
        rcases h1 with h1 | ⟨he1, hl1⟩
        · rcases h2 with h2 | ⟨he2, hl2⟩
          · left; omega
          · left; omega
        · rcases h2 with h2 | ⟨he2, hl2⟩
          · left; omega
          · right
            exact ⟨by omega, ih ys zs hl1 hl2⟩

theorem stringDataInj {a b : String} (h : a.data = b.data) : a = b := by
  cases a
  cases b
  exact congrArg String.mk h

theorem pyStrLe_total (a b : String) : pyStrLe a b = true ∨ pyStrLe b a = true := by
  unfold pyStrLe
  by_cases h : charListLt b.data a.data = true
  · right
    simp [charListLt_asymm _ _ h]
  · left
    simp [Bool.not_eq_true] at h
    simp [h]

theorem pyStrLe_antisymm {a b : String} (h1 : pyStrLe a b = true)
    (h2 : pyStrLe b a = true) : a = b := by
  unfold pyStrLe at h1 h2
  simp only [Bool.not_eq_true', Bool.not_eq_eq_eq_not] at h1 h2
  exact stringDataInj (charListLt_conn _ _ (by simpa using h2) (by simpa using h1))

theorem pyStrLe_trans {a b c : String} (h1 : pyStrLe a b = true)
    (h2 : pyStrLe b c = true) : pyStrLe a c = true := by
  unfold pyStrLe at h1 h2 ⊢
  simp only [Bool.not_eq_true'] at h1 h2 ⊢
  by_contra hc
  simp only [Bool.not_eq_false] at hc
  rcases Bool.eq_false_or_eq_true (charListLt b.data c.data) with h | h
  · have := charListLt_trans _ _ _ h hc
    rw [this] at h1
    cases h1
  · have hbc := charListLt_conn _ _ h h2
    rw [hbc] at h1
    rw [h1] at hc
    cases hc

theorem insertSorted_perm (v : String) (l : List String) :
    (insertSorted v l).Perm (v :: l) := by
  induction l with
  | nil => exact List.Perm.refl _
  | cons x xs ih =>
    unfold insertSorted
    by_cases h : pyStrLe v x = true
    · rw [if_pos h]
    · rw [if_neg (by simp [h])]
      exact (ih.cons x).trans (List.Perm.swap v x xs)

theorem sortStrings_perm (l : List String) : (sortStrings l).Perm l := by
  induction l with
  | nil => exact List.Perm.refl _
  | cons x xs ih =>
    unfold sortStrings
    exact (insertSorted_perm x (sortStrings xs)).trans (ih.cons x)

theorem insertSorted_sorted {l : List String}
    (hs : l.Sorted (fun a b => pyStrLe a b = true)) (v : String) :
    (insertSorted v l).Sorted (fun a b => pyStrLe a b = true) := by
  induction l with
  | nil => simp [insertSorted]
  | cons x xs ih =>
    rw [List.sorted_cons] at hs
    obtain ⟨hx, hxs⟩ := hs
    unfold insertSorted
    by_cases h : pyStrLe v x = true
    · rw [if_pos h]
      rw [List.sorted_cons]
      refine ⟨?_, ?_⟩
      · intro b hb
        rcases List.mem_cons.mp hb with hb | hb
        · rw [hb]; exact h
        · exact pyStrLe_trans h (hx b hb)
      · rw [List.sorted_cons]
        exact ⟨hx, hxs⟩
    · rw [if_neg (by simp [h])]
      rw [List.sorted_cons]
      refine ⟨?_, ih hxs⟩
      · intro b hb
        rcases List.mem_cons.mp ((insertSorted_perm v xs).mem_iff.mp hb) with hb | hb
        · rw [hb]
          rcases pyStrLe_total v x with ht | ht
          · exact absurd ht h
          · exact ht
        · exact hx b hb

theorem sortStrings_sorted (l : List String) :
    (sortStrings l).Sorted (fun a b => pyStrLe a b = true) := by
  induction l with
  | nil => simp [sortStrings]
  | cons x xs ih =>
    unfold sortStrings
    exact insertSorted_sorted ih x

theorem sortStrings_eq_iff_perm {a b : List String} :
    sortStrings a = sortStrings b ↔ a.Perm b := by
  constructor
  · intro h
    exact (sortStrings_perm a).symm.trans (h ▸ sortStrings_perm b)
  · intro h
    exact @List.eq_of_perm_of_sorted String (fun a b => pyStrLe a b = true)
      ⟨fun _ _ => pyStrLe_antisymm⟩ _ _
      ((sortStrings_perm a).trans (h.trans (sortStrings_perm b).symm))
      (sortStrings_sorted a) (sortStrings_sorted b)

theorem dataAppend (a b : String) : (a ++ b).data = a.data ++ b.data := by
  cases a
  cases b
  rfl

theorem neNoChanges_orderOnly (l r : String) : orderOnlyMsg l r ≠ "No changes" := by
  intro e
  have h : (orderOnlyMsg l r).data[0]? = ("No changes" : String).data[0]? := by rw [e]
  simp only [orderOnlyMsg, dataAppend, List.append_assoc] at h
  rw [List.getElem?_append_left (by decide)] at h
  exact absurd h (by decide)

theorem neNoChanges_orderOnlyRemaining (l r : String) :
    orderOnlyRemainingMsg l r ≠ "No changes" := by
  intro e
  have h : (orderOnlyRemainingMsg l r).data[0]? = ("No changes" : String).data[0]? := by
    rw [e]
  simp only [orderOnlyRemainingMsg, dataAppend, List.append_assoc] at h
  rw [List.getElem?_append_left (by decide)] at h
  exact absurd h (by decide)

theorem neNoChanges_orderReps (l r : String) :
    orderRepsRemainingMsg l r ≠ "No changes" := by
  intro e
  have h : (orderRepsRemainingMsg l r).data[0]? = ("No changes" : String).data[0]? := by
    rw [e]
  simp only [orderRepsRemainingMsg, dataAppend, List.append_assoc] at h
  rw [List.getElem?_append_left (by decide)] at h
  exact absurd h (by decide)

theorem neNoChanges_leftFormat (v : String) : defaultLeftFormat v ≠ "No changes" := by
  intro e
  have h : (defaultLeftFormat v).data[0]? = ("No changes" : String).data[0]? := by rw [e]
  simp only [defaultLeftFormat, dataAppend, List.append_assoc] at h
  rw [List.getElem?_append_left (by decide)] at h
  exact absurd h (by decide)

theorem neNoChanges_rightFormat (v : String) : defaultRightFormat v ≠ "No changes" := by
  intro e
  have h : (defaultRightFormat v).data[0]? = ("No changes" : String).data[0]? := by rw [e]
  simp only [defaultRightFormat, dataAppend, List.append_assoc] at h
  rw [List.getElem?_append_left (by decide)] at h
  exact absurd h (by decide)

theorem neNoChanges_orderAndCase : orderAndCaseOnlyMsg ≠ "No changes" := by decide

theorem neOrderOnly_orderAndCase (l r : String) :
    orderAndCaseOnlyMsg ≠ orderOnlyMsg l r := by
  intro e
  have h : orderAndCaseOnlyMsg.data[11]? = (orderOnlyMsg l r).data[11]? := by rw [e]
  simp only [orderOnlyMsg, dataAppend, List.append_assoc] at h
  rw [List.getElem?_append_left (by decide)] at h
  exact absurd h (by decide)

theorem neOrderOnly_orderOnlyRemaining (a b l r : String) :
    orderOnlyRemainingMsg a b ≠ orderOnlyMsg l r := by
  intro e
  have h : (orderOnlyRemainingMsg a b).data[14]? = (orderOnlyMsg l r).data[14]? := by
    rw [e]
  simp only [orderOnlyRemainingMsg, orderOnlyMsg, dataAppend, List.append_assoc] at h
  rw [List.getElem?_append_left (by decide), List.getElem?_append_left (by decide)] at h
  exact absurd h (by decide)

theorem neOrderOnly_orderReps (a b l r : String) :
    orderRepsRemainingMsg a b ≠ orderOnlyMsg l r := by
  intro e
  have h : (orderRepsRemainingMsg a b).data[1]? = (orderOnlyMsg l r).data[1]? := by
    rw [e]
  simp only [orderRepsRemainingMsg, orderOnlyMsg, dataAppend, List.append_assoc] at h
  rw [List.getElem?_append_left (by decide), List.getElem?_append_left (by decide)] at h
  exact absurd h (by decide)

theorem neOrderOnly_leftFormat (v l r : String) :
    defaultLeftFormat v ≠ orderOnlyMsg l r := by
  intro e
  have h : (defaultLeftFormat v).data[0]? = (orderOnlyMsg l r).data[0]? := by rw [e]
  simp only [defaultLeftFormat, orderOnlyMsg, dataAppend, List.append_assoc] at h
  rw [List.getElem?_append_left (by decide), List.getElem?_append_left (by decide)] at h
  exact absurd h (by decide)

theorem neOrderOnly_rightFormat (v l r : String) :
    defaultRightFormat v ≠ orderOnlyMsg l r := by
  intro e
  have h : (defaultRightFormat v).data[0]? = (orderOnlyMsg l r).data[0]? := by rw [e]
  simp only [defaultRightFormat, orderOnlyMsg, dataAppend, List.append_assoc] at h
  rw [List.getElem?_append_left (by decide), List.getElem?_append_left (by decide)] at h
  exact absurd h (by decide)

theorem append_eq_singleton {α : Type} {xs ys : List α} {x : α}
    (h : xs ++ ys = [x]) : (xs = [x] ∧ ys = []) ∨ (xs = [] ∧ ys = [x]) := by
  cases xs with
  | nil => right; exact ⟨rfl, h⟩
  | cons a as =>
    left
    simp only [List.cons_append, List.cons.injEq] at h
    obtain ⟨ha, h2⟩ := h
    rcases List.append_eq_nil.mp h2 with ⟨h3, h4⟩
    rw [ha, h3, h4]
    exact ⟨rfl, rfl⟩

theorem generalResult_singleton {lf rf : String → String} {left right : List String}
    {x : String} (h : generalResult lf rf left right = [x]) :
    (∃ v, x = lf v) ∨ (∃ v, x = rf v) ∨
    (∃ a b, x = orderOnlyRemainingMsg a b) ∨ (∃ a b, x = orderRepsRemainingMsg a b) := by
  unfold generalResult at h
  rw [List.append_assoc] at h
  rcases append_eq_singleton h with ⟨h1, _⟩ | ⟨_, h2⟩
  · left
    have hx : x ∈ (sortStrings (leftOnlySet left right)).map lf := by
      rw [h1]; exact List.mem_singleton.mpr rfl
    rcases List.mem_map.mp hx with ⟨v, _, hv⟩
    exact ⟨v, hv.symm⟩
  · rcases append_eq_singleton h2 with ⟨h3, _⟩ | ⟨_, h4⟩
    · right; left
      have hx : x ∈ (sortStrings (rightOnlySet left right)).map rf := by
        rw [h3]; exact List.mem_singleton.mpr rfl
      rcases List.mem_map.mp hx with ⟨v, _, hv⟩
      exact ⟨v, hv.symm⟩
    · by_cases hc : (remainderLeft (commonPairs left right)).length > 0
      · rw [if_pos hc] at h4
        by_cases he : (remainderLeft (commonPairs left right)).length =
            (remainderRight (commonPairs left right)).length
        · rw [if_pos he] at h4
          right; right; left
          exact ⟨_, _, (List.cons.injEq .. ▸ h4).1.symm⟩
        · rw [if_neg he] at h4
          right; right; right
          exact ⟨_, _, (List.cons.injEq .. ▸ h4).1.symm⟩
      · rw [if_neg hc] at h4
        cases h4

/-- C1: for every pair of accumulated value sequences, `KeyValueDiff.diff`
returns exactly the single line `No changes` iff the two lists are equal
element-wise, and returns exactly the single order-only message (printing
both full joined lists) iff the lists are unequal element-wise but equal
as multisets (i.e. permutations of each other). -/
theorem claim_C1 (L R : List String) :
    (kvdReport L R = ["No changes"] ↔ L = R) ∧
    (kvdReport L R = [orderOnlyMsg (pyJoin ", " L) (pyJoin ", " R)] ↔
      (L ≠ R ∧ L.Perm R)) := by
  constructor
  · constructor
    · intro h
      by_contra hne
      by_cases h2 : sortStrings L = sortStrings R
      · simp only [kvdReport, kvdDiff, if_neg hne, if_pos h2] at h
        exact neNoChanges_orderOnly _ _ (List.cons.injEq .. ▸ h).1
      · by_cases h3 : caseSetsEqual L R = true
        · simp only [kvdReport, kvdDiff, if_neg hne, if_neg h2, if_pos h3] at h
          exact neNoChanges_orderAndCase (List.cons.injEq .. ▸ h).1
        · simp only [kvdReport, kvdDiff, if_neg hne, if_neg h2,
            if_neg h3] at h
          rcases generalResult_singleton h with ⟨v, hv⟩ | ⟨v, hv⟩ |
            ⟨a, b, hv⟩ | ⟨a, b, hv⟩
          · exact neNoChanges_leftFormat v hv.symm
          · exact neNoChanges_rightFormat v hv.symm
          · exact neNoChanges_orderOnlyRemaining a b hv.symm
          · exact neNoChanges_orderReps a b hv.symm
    · intro h
      simp [kvdReport, kvdDiff, h]
  · constructor
    · intro h
      by_cases hne : L = R
      · simp only [kvdReport, kvdDiff, if_pos hne] at h
        exact absurd (List.cons.injEq .. ▸ h).1.symm
          (neNoChanges_orderOnly (pyJoin ", " L) (pyJoin ", " R))
      · by_cases h2 : sortStrings L = sortStrings R
        · exact ⟨hne, sortStrings_eq_iff_perm.mp h2⟩
        · exfalso
          by_cases h3 : caseSetsEqual L R = true
          · simp only [kvdReport, kvdDiff, if_neg hne, if_neg h2, if_pos h3] at h
            exact neOrderOnly_orderAndCase _ _ (List.cons.injEq .. ▸ h).1
          · simp only [kvdReport, kvdDiff, if_neg hne, if_neg h2, if_neg h3] at h
            rcases generalResult_singleton h with ⟨v, hv⟩ | ⟨v, hv⟩ |
              ⟨a, b, hv⟩ | ⟨a, b, hv⟩
            · exact neOrderOnly_leftFormat v _ _ hv.symm
            · exact neOrderOnly_rightFormat v _ _ hv.symm
            · exact neOrderOnly_orderOnlyRemaining a b _ _ hv.symm
            · exact neOrderOnly_orderReps a b _ _ hv.symm
    · intro h
      obtain ⟨hne, hperm⟩ := h
      have h2 := sortStrings_eq_iff_perm.mpr hperm
      simp [kvdReport, kvdDiff, hne, h2]

theorem caseSetsEqual_iff {L R : List String} :
    caseSetsEqual L R = true ↔ (L.map pyLower).toFinset = (R.map pyLower).toFinset := by
  unfold caseSetsEqual lowerKeysOf
  simp only [Bool.and_eq_true, List.all_eq_true, pyMem, decide_eq_true_eq,
    List.mem_dedup]
  constructor
  · rintro ⟨hl, hr⟩
    apply Finset.ext
    intro v
    simp only [List.mem_toFinset]
    exact ⟨fun hv => hl v hv, fun hv => hr v hv⟩
  · intro h
    constructor
    · intro v hv
      have : v ∈ (L.map pyLower).toFinset := List.mem_toFinset.mpr hv
      rw [h] at this
      exact List.mem_toFinset.mp this
    · intro v hv
      have : v ∈ (R.map pyLower).toFinset := List.mem_toFinset.mpr hv
      rw [← h] at this
      exact List.mem_toFinset.mp this

theorem leftCommonList_eq (L R : List String) :
    leftCommonList L R = L.filter (fun v => pyMem v R) := by
  unfold leftCommonList
  apply List.filter_congr
  intro v hv
  simp [pyMem, leftOnlySet, List.mem_dedup, List.mem_filter, hv]

theorem rightCommonList_eq (L R : List String) :
    rightCommonList L R = R.filter (fun v => pyMem v L) := by
  unfold rightCommonList
  apply List.filter_congr
  intro v hv
  simp [pyMem, rightOnlySet, List.mem_dedup, List.mem_filter, hv]

/-- Counterexample to C4 as stated: on `['a','a','b']` vs `['a','c']` the
multiset intersection is `['a']` on both sides, whose only pair is equal,
so the claim predicts just `-[b]` and `+[c]`; the code instead keeps both
occurrences of `a` on the left (its common lists are not multiset
intersections), leaving a nonempty left remainder and an extra
repetition-count line. -/
theorem claim_C4_counterexample :
    kvdReport ["a", "a", "b"] ["a", "c"] =
      ["-[b]", "+[c]",
       "Order and repetition count of remaining entries differs: [a] vs []."] ∧
    kvdReport ["a", "a", "b"] ["a", "c"] ≠ ["-[b]", "+[c]"] := by
  decide

/-- C4 (amended): in the general (fourth) case — lists not element-wise
equal, not multiset-equal, differing sets of distinct lower-cased keys —
`diff()` emits the sorted case-sensitive left-only set difference through
the left format and the right-only difference through the right format;
then pairs the common elements — each side's occurrences that also appear
anywhere on the other side (not the multiset intersection) — positionally
with missing-padding, drops equal pairs, and emits one additional line iff
the LEFT remainder is nonempty, with the repetition-count wording exactly
when the two remainders' lengths differ. -/
theorem claim_C4 (L R : List String) (h1 : L ≠ R) (h2 : ¬ L.Perm R)
    (h3 : (L.map pyLower).toFinset ≠ (R.map pyLower).toFinset) :
    kvdReport L R =
      (sortStrings (leftOnlySet L R)).map defaultLeftFormat ++
      (sortStrings (rightOnlySet L R)).map defaultRightFormat ++
      (if remainderLeft (padPairs (L.filter (fun v => pyMem v R))
            (R.filter (fun v => pyMem v L))) ≠ [] then
        [(if (remainderLeft (padPairs (L.filter (fun v => pyMem v R))
                (R.filter (fun v => pyMem v L)))).length =
              (remainderRight (padPairs (L.filter (fun v => pyMem v R))
                (R.filter (fun v => pyMem v L)))).length then
            orderOnlyRemainingMsg else orderRepsRemainingMsg)
          (pyJoin ", " (remainderLeft (padPairs (L.filter (fun v => pyMem v R))
            (R.filter (fun v => pyMem v L)))))
          (pyJoin ", " (remainderRight (padPairs (L.filter (fun v => pyMem v R))
            (R.filter (fun v => pyMem v L)))))]
       else []) := by
  have hs : sortStrings L ≠ sortStrings R := fun e => h2 (sortStrings_eq_iff_perm.mp e)
  have hc : ¬ (caseSetsEqual L R = true) := fun e => h3 (caseSetsEqual_iff.mp e)
  simp only [kvdReport, kvdDiff, if_neg h1, if_neg hs, if_neg hc]
  unfold generalResult commonPairs
  rw [leftCommonList_eq, rightCommonList_eq]
  simp only [gt_iff_lt, List.length_pos]

theorem lookup_cons_self {β : Type} (k : String) (b : β) (es : List (String × β)) :
    List.lookup k ((k, b) :: es) = some b := by
  have h : (k == k) = true := by simp
  simp [List.lookup_cons, h]

theorem lookup_cons_ne {β : Type} {a k : String} (h : a ≠ k) (b : β)
    (es : List (String × β)) :
    List.lookup a ((k, b) :: es) = List.lookup a es := by
  have hb : (a == k) = false := by simp [h]
  simp [List.lookup_cons, hb]

theorem mkMapGo_fail {k : String} {A B : Struct} (hAB : B ≠ A) :
    ∀ (ys : List (String × Struct)) (zs : List (String × Struct))
      (acc : List (String × Struct)), acc.lookup k = some A →
      mkKeyToStructGo acc (ys ++ (k, B) :: zs) = none := by
  intro ys
  induction ys with
  | nil =>
    intro zs acc hacc
    simp only [List.nil_append, mkKeyToStructGo, hacc, if_neg hAB]
  | cons e ys ih =>
    intro zs acc hacc
    obtain ⟨k2, s2⟩ := e
    simp only [List.cons_append, mkKeyToStructGo]
    by_cases hk : k2 = k
    · subst hk
      simp only [hacc]
      by_cases he : s2 = A
      · rw [if_pos he]
        exact ih zs _ (by rw [he]; exact lookup_cons_self k2 A acc)
      · rw [if_neg he]
    · cases hl : acc.lookup k2 with
      | some prev =>
        simp only [hl]
        by_cases he : s2 = prev
        · rw [if_pos he]
          exact ih zs _ (by rw [lookup_cons_ne (fun e => hk e.symm) s2 acc]; exact hacc)
        · rw [if_neg he]
      | none =>
        simp only [hl]
        exact ih zs _ (by rw [lookup_cons_ne (fun e => hk e.symm) s2 acc]; exact hacc)

theorem mkMap_two {k : String} {A B : Struct} (hAB : A ≠ B)
    (s mid t : List (String × Struct)) :
    makeKeyToStructureMap (s ++ (k, A) :: (mid ++ (k, B) :: t)) = none := by
  unfold makeKeyToStructureMap
  suffices h : ∀ acc : List (String × Struct),
      mkKeyToStructGo acc (s ++ (k, A) :: (mid ++ (k, B) :: t)) = none by
    exact h []
  induction s with
  | nil =>
    intro acc
    simp only [List.nil_append, mkKeyToStructGo]
    cases hl : acc.lookup k with
    | some prev =>
      simp only [hl]
      by_cases he : A = prev
      · rw [if_pos he]
        exact mkMapGo_fail (fun e => hAB e.symm) mid t _ (lookup_cons_self k A acc)
      · rw [if_neg he]
    | none =>
      simp only [hl]
      exact mkMapGo_fail (fun e => hAB e.symm) mid t _ (lookup_cons_self k A acc)
  | cons e s ih =>
    intro acc
    obtain ⟨k2, s2⟩ := e
    simp only [List.cons_append, mkKeyToStructGo]
    cases hl : acc.lookup k2 with
    | some prev =>
      simp only [hl]
      by_cases he : s2 = prev
      · rw [if_pos he]
        exact ih _
      · rw [if_neg he]
    | none =>
      simp only [hl]
      exact ih _

theorem mkMapGo_consistent {entries : List (String × Struct)}
    (hcons : ∀ k X Y, (k, X) ∈ entries → (k, Y) ∈ entries → X = Y) :
    ∀ (rem acc : List (String × Struct)),
      (∀ x ∈ rem, x ∈ entries) →
      (∀ k X, acc.lookup k = some X → (k, X) ∈ entries) →
      ∃ m, mkKeyToStructGo acc rem = some m ∧
        (∀ k X, m.lookup k = some X → (k, X) ∈ entries) ∧
        (∀ k, (acc.lookup k).isSome → (m.lookup k).isSome) ∧
        (∀ k X, (k, X) ∈ rem → (m.lookup k).isSome) := by
  intro rem
  induction rem with
  | nil =>
    intro acc _ hinv
    refine ⟨acc, rfl, hinv, fun _ h => h, ?_⟩
    intro k X h
    cases h
  | cons e rem ih =>
    intro acc hsub hinv
    obtain ⟨k2, s2⟩ := e
    have hmem : (k2, s2) ∈ entries := hsub _ (List.mem_cons_self _ _)
    have hinv2 : ∀ k X, ((k2, s2) :: acc).lookup k = some X → (k, X) ∈ entries := by
      intro k X h
      by_cases hk : k = k2
      · subst hk
        rw [lookup_cons_self] at h
        cases h
        exact hmem
      · rw [lookup_cons_ne hk] at h
        exact hinv k X h
    have hsub2 : ∀ x ∈ rem, x ∈ entries := fun x hx => hsub x (List.mem_cons_of_mem _ hx)
    have hmono : ∀ k, (acc.lookup k).isSome → (((k2, s2) :: acc).lookup k).isSome := by
      intro k h
      by_cases hk : k = k2
      · subst hk
        rw [lookup_cons_self]
        rfl
      · rw [lookup_cons_ne hk]
        exact h
    simp only [mkKeyToStructGo]
    cases hl : acc.lookup k2 with
    | some prev =>
      simp only [hl]
      have he : s2 = prev := hcons k2 s2 prev hmem (hinv k2 prev hl)
      rw [if_pos he]
      obtain ⟨m, hm, hminv, hmmono, hmcov⟩ := ih _ hsub2 hinv2
      refine ⟨m, hm, hminv, fun k h => hmmono k (hmono k h), ?_⟩
      intro k X h
      rcases List.mem_cons.mp h with h | h
      · cases h
        apply hmmono
        rw [lookup_cons_self]
        rfl
      · exact hmcov k X h
    | none =>
      simp only [hl]
      obtain ⟨m, hm, hminv, hmmono, hmcov⟩ := ih _ hsub2 hinv2
      refine ⟨m, hm, hminv, fun k h => hmmono k (hmono k h), ?_⟩
      intro k X h
      rcases List.mem_cons.mp h with h | h
      · cases h
        apply hmmono
        rw [lookup_cons_self]
        rfl
      · exact hmcov k X h

/-- C5: building the key-to-structure map from entries in which one
identifier occurs with two unequal structures fails (the `assert` raises)
rather than keeping either; when all repeats of each identifier carry
equal structures, construction succeeds and each identifier maps to its
single structure. -/
theorem claim_C5 (entries : List (String × Struct)) (k : String) (A B : Struct) :
    ((k, A) ∈ entries → (k, B) ∈ entries → A ≠ B →
      makeKeyToStructureMap entries = none) ∧
    ((∀ k2 X Y, (k2, X) ∈ entries → (k2, Y) ∈ entries → X = Y) →
      ∃ m, makeKeyToStructureMap entries = some m ∧
        ∀ k2 X, (k2, X) ∈ entries → m.lookup k2 = some X) := by
  constructor
  · intro hA hB hAB
    obtain ⟨s, t, hst⟩ := List.append_of_mem hA
    subst hst
    rcases List.mem_append.mp hB with hBs | hBt
    · obtain ⟨s1, s2, hs⟩ := List.append_of_mem hBs
      subst hs
      have : s1 ++ (k, B) :: s2 ++ (k, A) :: t =
          s1 ++ (k, B) :: (s2 ++ (k, A) :: t) := by
        simp [List.append_assoc]
      rw [this]
      exact mkMap_two (fun e => hAB e.symm) s1 s2 t
    · rcases List.mem_cons.mp hBt with hb | hBt
      · exact absurd (congrArg Prod.snd hb).symm hAB
      · obtain ⟨t1, t2, ht⟩ := List.append_of_mem hBt
        subst ht
        exact mkMap_two hAB s t1 t2
  · intro hcons
    obtain ⟨m, hm, hminv, _, hmcov⟩ :=
      mkMapGo_consistent hcons entries [] (fun x hx => hx) (by intro k2 X h; cases h)
    refine ⟨m, hm, ?_⟩
    intro k2 X hX
    have hs := hmcov k2 X hX
    cases hl : m.lookup k2 with
    | none => rw [hl] at hs; cases hs
    | some Y =>
      rw [hcons k2 X Y hX (hminv k2 Y hl)]

/-- C8: `diff` raises `KeyError` (the not-found error) iff the name has
no identifier in the left index or none in the right index; the error is
returned instead of any traversal result, so no report is produced. -/
theorem claim_C8 (name : String) (li ri : Info) (verbose : Bool)
    (ft : Option (Option (String → String) × Option (String → String)))
    (cp : Bool) (pr : List String → List String) :
    (∃ m, diff name li ri verbose ft cp pr = .error (.keyError m)) ↔
      (getKeyForName li name = none ∨ getKeyForName ri name = none) := by
  constructor
  · rintro ⟨m, hm⟩
    by_cases h1 : getKeyForName li name = none
    · exact Or.inl h1
    · right
      by_cases h2 : getKeyForName ri name = none
      · exact h2
      · exfalso
        obtain ⟨lk, hlk⟩ := Option.ne_none_iff_exists'.mp h1
        obtain ⟨rk, hrk⟩ := Option.ne_none_iff_exists'.mp h2
        cases hd : diffAndReturnSeen [(name, lk, rk)] li ri verbose ft cp pr ∅ with
        | none =>
          simp only [diff, hlk, hrk, hd] at hm
          simp at hm
        | some r =>
          cases r with
          | error e =>
            simp only [diff, hlk, hrk, hd] at hm
            simp at hm
          | ok res =>
            obtain ⟨result, visited, seenSet⟩ := res
            simp only [diff, hlk, hrk, hd] at hm
            by_cases hif : result = [] ∧ lk ≠ rk
            · rw [if_pos hif] at hm
              simp at hm
            · rw [if_neg hif] at hm
              simp at hm
  · intro h
    by_cases h1 : getKeyForName li name = none
    · refine ⟨"Left log does not contain " ++ name, ?_⟩
      simp only [diff, h1]
    · rcases h with h | h2
      · exact absurd h h1
      · obtain ⟨lk, hlk⟩ := Option.ne_none_iff_exists'.mp h1
        refine ⟨"Right log does not contain " ++ name, ?_⟩
        simp only [diff, hlk, h2]

/-- C7: if a name resolves in both indexes and the full traversal
produces no report lines, then `diff` returns exactly the single fallback
line when the resolved identifiers are unequal; when they are equal the
traversal result is returned unchanged, with no fallback line added. -/
theorem claim_C7 (name : String) (li ri : Info) (verbose : Bool)
    (ft : Option (Option (String → String) × Option (String → String)))
    (cp : Bool) (pr : List String → List String) (lk rk : String)
    (h1 : getKeyForName li name = some lk) (h2 : getKeyForName ri name = some rk)
    (res : List String) (vis : List KeyPair) (sn : Finset KeyPair)
    (hd : diffAndReturnSeen [(name, lk, rk)] li ri verbose ft cp pr ∅ =
      some (.ok (res, vis, sn))) :
    (res = [] → lk ≠ rk →
      diff name li ri verbose ft cp pr =
        .ok ["I don't know why RuleKeys for " ++ name ++ " do not match."]) ∧
    (lk = rk → diff name li ri verbose ft cp pr = .ok res) := by
  constructor
  · intro hres hne
    simp only [diff, h1, h2, hd]
    rw [if_pos ⟨hres, hne⟩]
  · intro heq
    simp only [diff, h1, h2, hd]
    rw [if_neg (by rintro ⟨_, hne⟩; exact hne heq)]

/-- Witness for C7: two logs holding a byte-identical structure under
different identifiers produce exactly the fallback line. -/
theorem claim_C7_witness :
    diff "foo" identLeftInfo identRightInfo false none false noPaths =
      .ok ["I don't know why RuleKeys for foo do not match."] :=
  (claim_C7 "foo" identLeftInfo identRightInfo false none false noPaths
    "k1" "k2" (by decide) (by decide) [] [("k1", "k2")] ∅ (by decide)).1 rfl
    (by decide)

theorem enqueueChanged_count (p : KeyPair) :
    ∀ (items q : List WorkItem) (s : Finset KeyPair),
      ((enqueueChanged items q s).1.map (fun it => it.2)).count p +
        (if p ∈ (enqueueChanged items q s).2 then 0 else 1) ≤
      (q.map (fun it => it.2)).count p + (if p ∈ s then 0 else 1) := by
  intro items
  induction items with
  | nil => intro q s; exact le_refl _
  | cons it rest ih =>
    intro q s
    by_cases hs : it.2 ∈ s
    · simp only [enqueueChanged, if_pos hs]
      exact ih q s
    · simp only [enqueueChanged, if_neg hs]
      refine le_trans (ih _ _) ?_
      rw [List.map_append, List.count_append]
      by_cases hp : p = it.2
      · subst hp
        rw [if_pos (Finset.mem_insert_self _ _), if_neg hs]
        simp
      · simp only [Finset.mem_insert, hp, false_or]
        have hz : (([it] : List WorkItem).map (fun it => it.2)).count p = 0 := by
          simp [List.count_singleton, hp]
        omega

theorem diffLoop_count (li ri : Info) (verbose : Bool) (lf rf : String → String)
    (cp : Bool) (pr : List String → List String) (p : KeyPair) :
    ∀ (fuel : Nat) (queue : List WorkItem) (seen : Finset KeyPair)
      (result : List String) (visited : List KeyPair)
      (res : List String) (vis : List KeyPair) (sn : Finset KeyPair),
      diffLoop li ri verbose lf rf cp pr fuel queue seen result visited =
        some (.ok (res, vis, sn)) →
      vis.count p ≤ visited.count p + (queue.map (fun it => it.2)).count p +
        (if p ∈ seen then 0 else 1) := by
  intro fuel
  induction fuel with
  | zero =>
    intro queue seen result visited res vis sn h
    simp only [diffLoop] at h
    by_cases hq : queue.isEmpty
    · rw [if_pos hq] at h
      simp only [Option.some.injEq, Except.ok.injEq, Prod.mk.injEq] at h
      obtain ⟨-, hv, -⟩ := h
      subst hv
      have : 0 ≤ (queue.map (fun it => it.2)).count p + (if p ∈ seen then 0 else 1) :=
        Nat.zero_le _
      omega
    · rw [if_neg hq] at h
      cases h
  | succ fuel ih =>
    intro queue seen result visited res vis sn h
    cases queue with
    | nil =>
      simp only [diffLoop, Option.some.injEq, Except.ok.injEq, Prod.mk.injEq] at h
      obtain ⟨-, hv, -⟩ := h
      subst hv
      omega
    | cons it rest =>
      simp only [diffLoop] at h
      cases hbl : getByKey li it.2.1 with
      | none => simp only [hbl] at h; cases h
      | some ls =>
        cases hbr : getByKey ri it.2.2 with
        | none => simp only [hbl, hbr] at h; cases h
        | some rs =>
          simp only [hbl, hbr] at h
          cases hdi : diffInternal it.1 ls li rs ri verbose lf rf cp pr with
          | error e => simp only [hdi] at h; cases h
          | ok rc =>
            obtain ⟨report, changed⟩ := rc
            simp only [hdi] at h
            have hih := ih _ _ _ _ _ _ _ h
            have henq := enqueueChanged_count p (sortItems changed.dedup) rest seen
            rw [List.count_append] at hih
            have hcons : ((it :: rest).map (fun it => it.2)).count p =
                (rest.map (fun it => it.2)).count p + (if p = it.2 then 1 else 0) := by
              by_cases hp : p = it.2
              · subst hp
                simp [List.count_cons]
              · simp [List.count_cons, hp]
            have hone : (([it.2] : List KeyPair)).count p = (if p = it.2 then 1 else 0) := by
              by_cases hp : p = it.2
              · subst hp; simp
              · simp [hp]
            rw [hone] at hih
            rw [hcons]
            omega

/-- C2 (amended): in any completed run of the traversal, every identifier
pair is compared at most once more than its multiplicity among the
starting items (when not already in the initial seen set) — so every
discovered (non-starting) pair is compared at most once, but a starting
pair, which is not pre-marked seen, can be compared a second time when a
cycle rediscovers it. -/
theorem claim_C2 (starting : List WorkItem) (li ri : Info) (verbose : Bool)
    (ft : Option (Option (String → String) × Option (String → String)))
    (cp : Bool) (pr : List String → List String) (seen : Finset KeyPair)
    (res : List String) (vis : List KeyPair) (sn : Finset KeyPair)
    (hd : diffAndReturnSeen starting li ri verbose ft cp pr seen =
      some (.ok (res, vis, sn))) (p : KeyPair) :
    vis.count p ≤ (starting.map (fun it => it.2)).count p +
      (if p ∈ seen then 0 else 1) := by
  unfold diffAndReturnSeen at hd
  have h := diffLoop_count li ri verbose _ _ cp pr p _ _ _ _ _ _ _ _ hd
  simpa using h

/-- Witness for C2 at a concrete run: the single visited pair is counted
once, within the bound of one starting occurrence plus one. -/
theorem claim_C2_witness :
    ([("k1", "k2")] : List KeyPair).count ("k1", "k2") ≤
      (([("foo", ("k1", "k2"))] : List WorkItem).map (fun it => it.2)).count
        ("k1", "k2") +
      (if ("k1", "k2") ∈ (∅ : Finset KeyPair) then 0 else 1) :=
  claim_C2 [("foo", ("k1", "k2"))] identLeftInfo identRightInfo false none
    false noPaths ∅ [] [("k1", "k2")] ∅ (by decide) ("k1", "k2")

/-- Counterexample to C2 as stated: over the two-object cyclic reference
graph, the starting pair `(a1, a2)` is compared twice (it is rediscovered
through the cycle because starting pairs are not pre-marked seen), and its
explanation lines are reported twice. -/
theorem claim_C2_counterexample :
    (runVisited (diffAndReturnSeen [("n", ("a1", "a2"))] cycLeftInfo cycRightInfo
      false none false noPaths ∅)).count ("a1", "a2") = 2 ∧
    (runReport (diffAndReturnSeen [("n", ("a1", "a2"))] cycLeftInfo cycRightInfo
      false none false noPaths ∅)).count "    -[1]" = 2 := by decide

theorem getD_snd_some {l : Option (String × Option String)} {kk : String}
    (h : (l.getD ("<missing>", none)).2 = some kk) : ∃ v, l = some (v, some kk) := by
  cases l with
  | none => simp at h
  | some lp =>
    obtain ⟨lv, lk⟩ := lp
    simp only [Option.getD_some] at h
    exact ⟨lv, by rw [h]⟩

theorem pairStep_changed {label k : String} {li ri : Info}
    {l r : Option (String × Option String)} {it : WorkItem}
    (h : pairStep label k li ri l r = .changed it) :
    (∃ lv, l = some (lv, some it.2.1)) ∧ (∃ rv, r = some (rv, some it.2.2)) := by
  simp only [pairStep] at h
  split at h
  · cases h
  · split at h
    case _ leftKey rightKey heq1 heq2 =>
      split at h
      · have hinj := PairStep.changed.inj h
        refine ⟨getD_snd_some ?_, getD_snd_some ?_⟩
        · rw [← hinj]
          exact heq1
        · rw [← hinj]
          exact heq2
      · split at h
        · split at h
          · split at h
            · have hinj := PairStep.changed.inj h
              refine ⟨getD_snd_some ?_, getD_snd_some ?_⟩
              · rw [← hinj]
                exact heq1
              · rw [← hinj]
                exact heq2
            · cases h
          · cases h
        · cases h
    case _ => cases h

theorem processPairs_changed {label k : String} {li ri : Info} :
    ∀ {pairs : List (Option (String × Option String) × Option (String × Option String))}
      {o : List (String × String)} {c : List WorkItem},
      processPairs label k li ri pairs = .ok (o, c) →
      ∀ it ∈ c, ∃ lp rp, (lp, rp) ∈ pairs ∧
        pairStep label k li ri lp rp = .changed it := by
  intro pairs
  induction pairs with
  | nil =>
    intro o c h it hit
    simp only [processPairs, Except.ok.injEq, Prod.mk.injEq] at h
    rw [← h.2] at hit
    cases hit
  | cons pr rest ih =>
    intro o c h it hit
    obtain ⟨lp, rp⟩ := pr
    simp only [processPairs] at h
    cases hps : pairStep label k li ri lp rp with
    | raised => rw [hps] at h; cases h
    | skip =>
      rw [hps] at h
      obtain ⟨lp2, rp2, hmem, hstep⟩ := ih h it hit
      exact ⟨lp2, rp2, List.mem_cons_of_mem _ hmem, hstep⟩
    | changed it2 =>
      rw [hps] at h
      cases hrest : processPairs label k li ri rest with
      | error e => rw [hrest] at h; cases h
      | ok pc =>
        rw [hrest] at h
        simp only [Except.map, Except.ok.injEq, Prod.mk.injEq] at h
        obtain ⟨-, hch⟩ := h
        rw [← hch] at hit
        rcases List.mem_cons.mp hit with hit | hit
        · subst hit
          exact ⟨lp, rp, List.mem_cons_self _ _, hps⟩
        · obtain ⟨lp2, rp2, hmem, hstep⟩ :=
            ih (o := pc.1) (c := pc.2) (by rw [hrest]) it hit
          exact ⟨lp2, rp2, List.mem_cons_of_mem _ hmem, hstep⟩
    | value p =>
      rw [hps] at h
      cases hrest : processPairs label k li ri rest with
      | error e => rw [hrest] at h; cases h
      | ok pc =>
        rw [hrest] at h
        simp only [Except.map, Except.ok.injEq, Prod.mk.injEq] at h
        obtain ⟨-, hch⟩ := h
        rw [← hch] at hit
        obtain ⟨lp2, rp2, hmem, hstep⟩ :=
          ih (o := pc.1) (c := pc.2) (by rw [hrest]) it hit
        exact ⟨lp2, rp2, List.mem_cons_of_mem _ hmem, hstep⟩

theorem zipPad_mem {a b : List (String × Option String)}
    {lp rp : Option (String × Option String)} (h : (lp, rp) ∈ zipPad a b) :
    (∀ x, lp = some x → x ∈ a) ∧ (∀ y, rp = some y → y ∈ b) := by
  unfold zipPad at h
  have hm := List.of_mem_zip h
  constructor
  · intro x hx
    rcases List.mem_append.mp hm.1 with h1 | h1
    · rw [hx] at h1
      rcases List.mem_map.mp h1 with ⟨x2, hx2, he⟩
      cases he
      exact hx2
    · rw [hx] at h1
      cases List.eq_of_mem_replicate h1
  · intro y hy
    rcases List.mem_append.mp hm.2 with h1 | h1
    · rw [hy] at h1
      rcases List.mem_map.mp h1 with ⟨y2, hy2, he⟩
      cases he
      exact hy2
    · rw [hy] at h1
      cases List.eq_of_mem_replicate h1

theorem getD_mem_or {α : Type} (l : List α) (n : Nat) (d : α) :
    l.getD n d ∈ l ∨ l.getD n d = d := by
  by_cases h : n < l.length
  · left
    rw [List.getD_eq_getElem l d h]
    exact List.getElem_mem h
  · right
    exact List.getD_eq_default l d (Nat.le_of_not_lt h)

theorem swapEntries_mem {l : List (String × Option String)} {i j : Nat}
    {x : String × Option String} (h : x ∈ swapEntries l i j) :
    x ∈ l ∨ x = ("", none) := by
  unfold swapEntries at h
  rcases List.mem_or_eq_of_mem_set h with h1 | h1
  · rcases List.mem_or_eq_of_mem_set h1 with h2 | h2
    · exact Or.inl h2
    · rcases getD_mem_or l j ("", none) with h3 | h3
      · exact Or.inl (h2 ▸ h3)
      · exact Or.inr (h2.trans h3)
  · rcases getD_mem_or l i ("", none) with h3 | h3
    · exact Or.inl (h1 ▸ h3)
    · exact Or.inr (h1.trans h3)

theorem alignDepsGo_mem {li ri : Info} {lwk : List (String × Option String)} :
    ∀ (idxs : List Nat) (rwk : List (String × Option String)) (did : Bool)
      {x : String × Option String},
      x ∈ (alignDepsGo li ri lwk idxs (rwk, did)).1 →
      x ∈ rwk ∨ x = ("", none) := by
  intro idxs
  induction idxs with
  | nil => intro rwk did x h; exact Or.inl h
  | cons i rest ih =>
    intro rwk did x h
    simp only [alignDepsGo] at h
    cases hg : lwk.get? i with
    | none =>
      simp only [hg] at h
      exact ih rwk did h
    | some lp =>
      simp only [hg] at h
      cases hn : getNameForKey li lp.2 with
      | none =>
        simp only [hn] at h
        exact ih rwk did h
      | some leftName =>
        simp only [hn] at h
        by_cases hl : rwk.length ≤ i
        · simp only [if_pos hl] at h
          exact ih rwk did h
        · simp only [if_neg hl] at h
          cases hf : rwk.findIdx? (fun e => getNameForKey ri e.2 == some leftName) with
          | none =>
            simp only [hf] at h
            exact ih rwk did h
          | some j =>
            simp only [hf] at h
            by_cases hj : j ≠ i
            · simp only [if_pos hj] at h
              rcases ih _ _ h with h2 | h2
              · rcases swapEntries_mem h2 with h3 | h3
                · exact Or.inl h3
                · exact Or.inr h3
              · exact Or.inr h2
            · simp only [if_neg hj] at h
              exact ih rwk did h

theorem alignDeps_mem {li ri : Info} {lwk rwk : List (String × Option String)}
    {x : String × Option String} (h : x ∈ (alignDeps li ri lwk rwk).1) :
    x ∈ rwk ∨ x = ("", none) := by
  unfold alignDeps at h
  exact alignDepsGo_mem _ _ _ h

theorem getRuleKeyRefs_mem {values : List String} {v : String} {k2 : Option String}
    (h : (v, k2) ∈ getRuleKeyRefs values) :
    v ∈ values ∧ extractRuleKeyRef v = k2 := by
  unfold getRuleKeyRefs at h
  rcases List.mem_map.mp h with ⟨v2, hv2, he⟩
  obtain ⟨he1, he2⟩ := Prod.mk.injEq .. ▸ he
  subst he1
  exact ⟨hv2, he2⟩

theorem structRefs_mem {s : Struct} {kk : Option String} {vals : List String}
    {v : String} {k2 : String} (hl : lookupStruct s kk = some vals)
    (hv : v ∈ vals) (he : extractRuleKeyRef v = some k2) : k2 ∈ structRefs s := by
  unfold lookupStruct at hl
  cases hf : s.find? (fun e => e.1 == kk) with
  | none => rw [hf] at hl; cases hl
  | some e =>
    rw [hf] at hl
    simp only [Option.some.injEq] at hl
    have hmem := List.mem_of_find?_eq_some hf
    subst hl
    clear hf
    induction s with
    | nil => cases hmem
    | cons e2 rest ih =>
      unfold structRefs
      simp only [List.foldr_cons]
      rcases List.mem_cons.mp hmem with h1 | h1
      · subst h1
        apply Finset.mem_union_left
        rw [List.mem_toFinset]
        exact List.mem_filterMap.mpr ⟨v, hv, he⟩
      · exact Finset.mem_union_right _ (ih h1)

theorem processKey_changed {label : String} {li : Info} {ls : Struct} {ri : Info}
    {rs : Struct} {k : String} {al : List String} {ps : List (String × String)}
    {ch : List WorkItem}
    (h : processKey label li ls ri rs k = .ok (al, ps, ch)) :
    ∀ it ∈ ch, it.2.1 ∈ structRefs ls ∧ it.2.2 ∈ structRefs rs := by
  intro it hit
  simp only [processKey] at h
  cases hpp : processPairs label k li ri
      (zipPad (getRuleKeyRefs ((lookupStruct ls (some k)).getD []))
        (if depsSuffixCondition k = true then
          alignDeps li ri (getRuleKeyRefs ((lookupStruct ls (some k)).getD []))
            (getRuleKeyRefs ((lookupStruct rs (some k)).getD []))
        else (getRuleKeyRefs ((lookupStruct rs (some k)).getD []), false)).1) with
  | error e => rw [hpp] at h; cases h
  | ok pc =>
    obtain ⟨ps2, ch2⟩ := pc
    rw [hpp] at h
    simp only [Except.map, Except.ok.injEq, Prod.mk.injEq] at h
    obtain ⟨-, -, hch2⟩ := h
    subst hch2
    obtain ⟨lp, rp, hmem, hstep⟩ :=
      processPairs_changed (o := ps2) (c := ch2) hpp it hit
    obtain ⟨⟨lv, hlv⟩, ⟨rv, hrv⟩⟩ := pairStep_changed hstep
    obtain ⟨hma, hmb⟩ := zipPad_mem hmem
    have hla := hma _ hlv
    have hrb := hmb _ hrv
    constructor
    · cases hll : lookupStruct ls (some k) with
      | none =>
        rw [hll] at hla
        simp only [Option.getD_none] at hla
        cases (getRuleKeyRefs_mem hla).1
      | some vals =>
        rw [hll] at hla
        simp only [Option.getD_some] at hla
        obtain ⟨hv, he⟩ := getRuleKeyRefs_mem hla
        exact structRefs_mem hll hv he
    · have hrb2 : (rv, some it.2.2) ∈
          getRuleKeyRefs ((lookupStruct rs (some k)).getD []) := by
        by_cases hdc : depsSuffixCondition k = true
        · rw [if_pos hdc] at hrb
          rcases alignDeps_mem hrb with h2 | h2
          · exact h2
          · cases (Prod.mk.injEq .. ▸ h2).2
        · rw [if_neg hdc] at hrb
          exact hrb
      cases hll : lookupStruct rs (some k) with
      | none =>
        rw [hll] at hrb2
        simp only [Option.getD_none] at hrb2
        cases (getRuleKeyRefs_mem hrb2).1
      | some vals =>
        rw [hll] at hrb2
        simp only [Option.getD_some] at hrb2
        obtain ⟨hv, he⟩ := getRuleKeyRefs_mem hrb2
        exact structRefs_mem hll hv he

theorem mapMExcept_mem {α β : Type} {f : α → Except Unit β} :
    ∀ {ks : List α} {out : List β}, mapMExcept f ks = .ok out →
      ∀ o ∈ out, ∃ a ∈ ks, f a = .ok o := by
  intro ks
  induction ks with
  | nil =>
    intro out h o ho
    simp only [mapMExcept, Except.ok.injEq] at h
    rw [← h] at ho
    cases ho
  | cons a as ih =>
    intro out h o ho
    simp only [mapMExcept] at h
    cases hfa : f a with
    | error e => rw [hfa] at h; cases h
    | ok b =>
      rw [hfa] at h
      cases hrest : mapMExcept f as with
      | error e => rw [hrest] at h; cases h
      | ok bs =>
        rw [hrest] at h
        simp only [Except.ok.injEq] at h
        rw [← h] at ho
        rcases List.mem_cons.mp ho with ho | ho
        · subst ho
          exact ⟨a, List.mem_cons_self _ _, hfa⟩
        · obtain ⟨a2, ha2, hfa2⟩ := ih hrest o ho
          exact ⟨a2, List.mem_cons_of_mem _ ha2, hfa2⟩

theorem diffInternal_changed {label : String} {ls : Struct} {li : Info}
    {rs : Struct} {ri : Info} {verbose : Bool} {lf rf : String → String}
    {cp : Bool} {pr : List String → List String} {report : List String}
    {changed : List WorkItem}
    (h : diffInternal label ls li rs ri verbose lf rf cp pr =
      .ok (report, changed)) :
    ∀ it ∈ changed, it.2.1 ∈ structRefs ls ∧ it.2.2 ∈ structRefs rs := by
  intro it hit
  unfold diffInternal at h
  cases hmm : mapMExcept (fun k =>
      (processKey label li ls ri rs k).map (fun r => (k, r)))
      ((unionKeys ls rs).filterMap id) with
  | error e => rw [hmm] at h; cases h
  | ok perKey =>
    simp only [hmm] at h
    cases hvl : verboseLine ls rs
        ((perKey.map (fun kr => kr.2.2.2)).flatten) verbose with
    | error e => rw [hvl] at h; cases h
    | ok verbosePart =>
      simp only [hvl, Except.ok.injEq, Prod.mk.injEq] at h
      rw [← h.2] at hit
      rcases List.mem_flatten.mp hit with ⟨chunk, hchunk, hin⟩
      rcases List.mem_map.mp hchunk with ⟨kr, hkr, hkr2⟩
      obtain ⟨a, -, hfa⟩ := mapMExcept_mem hmm kr hkr
      cases hpk : processKey label li ls ri rs a with
      | error e => rw [hpk] at hfa; cases hfa
      | ok r =>
        obtain ⟨al2, ps2, ch2⟩ := r
        rw [hpk] at hfa
        simp only [Except.map, Except.ok.injEq] at hfa
        have hkr3 : kr.2.2.2 = chunk := hkr2
        rw [← hfa] at hkr3
        rw [← hkr3] at hin
        exact processKey_changed hpk it hin

theorem lookup_mem {β : Type} {k : String} {v : β} :
    ∀ {l : List (String × β)}, l.lookup k = some v → (k, v) ∈ l := by
  intro l
  induction l with
  | nil => intro h; cases h
  | cons e rest ih =>
    intro h
    obtain ⟨k2, v2⟩ := e
    by_cases hk : k = k2
    · subst hk
      rw [lookup_cons_self] at h
      simp only [Option.some.injEq] at h
      subst h
      exact List.mem_cons_self _ _
    · rw [lookup_cons_ne hk] at h
      exact List.mem_cons_of_mem _ (ih h)

theorem structRefs_subset_infoRefs {info : Info} {kk : String} {s : Struct}
    (h : getByKey info kk = some s) : structRefs s ⊆ infoRefs info := by
  unfold getByKey at h
  have hmem := lookup_mem h
  unfold infoRefs
  generalize info.keyToStruct = entries at hmem
  induction entries with
  | nil => cases hmem
  | cons e rest ih =>
    simp only [List.foldr_cons]
    rcases List.mem_cons.mp hmem with h1 | h1
    · subst h1
      exact Finset.subset_union_left
    · exact (ih h1).trans Finset.subset_union_right

theorem mem_sortItems {x : WorkItem} :
    ∀ {l : List WorkItem}, x ∈ sortItems l ↔ x ∈ l := by
  intro l
  have hins : ∀ (v : WorkItem) (m : List WorkItem),
      ∀ y, y ∈ insertSortedItem v m ↔ y ∈ v :: m := by
    intro v m
    induction m with
    | nil => intro y; simp [insertSortedItem]
    | cons a as ih =>
      intro y
      unfold insertSortedItem
      by_cases hc : itemLe v a = true
      · rw [if_pos hc]
      · rw [if_neg hc]
        constructor
        · intro hy
          rcases List.mem_cons.mp hy with hy | hy
          · subst hy
            exact List.mem_cons_of_mem _ (List.mem_cons_self _ _)
          · rcases List.mem_cons.mp ((ih y).mp hy) with hy | hy
            · subst hy
              exact List.mem_cons_self _ _
            · exact List.mem_cons_of_mem _ (List.mem_cons_of_mem _ hy)
        · intro hy
          rcases List.mem_cons.mp hy with hy | hy
          · subst hy
            exact List.mem_cons_of_mem _ ((ih y).mpr (List.mem_cons_self _ _))
          · rcases List.mem_cons.mp hy with hy | hy
            · subst hy
              exact List.mem_cons_self _ _
            · exact List.mem_cons_of_mem _
                ((ih y).mpr (List.mem_cons_of_mem _ hy))
  induction l with
  | nil => simp [sortItems]
  | cons a as ih =>
    unfold sortItems
    rw [hins a (sortItems as) x]
    constructor
    · intro hy
      rcases List.mem_cons.mp hy with hy | hy
      · subst hy; exact List.mem_cons_self _ _
      · exact List.mem_cons_of_mem _ (ih.mp hy)
    · intro hy
      rcases List.mem_cons.mp hy with hy | hy
      · subst hy; exact List.mem_cons_self _ _
      · exact List.mem_cons_of_mem _ (ih.mpr hy)

theorem enqueueChanged_measure (U : Finset KeyPair) :
    ∀ (items q : List WorkItem) (s : Finset KeyPair),
      (∀ it ∈ items, it.2 ∈ U) →
      (enqueueChanged items q s).1.length +
        2 * ((U \ (enqueueChanged items q s).2).card) ≤
      q.length + 2 * ((U \ s).card) := by
  intro items
  induction items with
  | nil => intro q s _; exact le_refl _
  | cons it rest ih =>
    intro q s hU
    have hrest : ∀ it2 ∈ rest, it2.2 ∈ U :=
      fun it2 h2 => hU it2 (List.mem_cons_of_mem _ h2)
    by_cases hs : it.2 ∈ s
    · simp only [enqueueChanged, if_pos hs]
      exact ih q s hrest
    · simp only [enqueueChanged, if_neg hs]
      refine le_trans (ih _ _ hrest) ?_
      rw [List.length_append]
      have hmem : it.2 ∈ U \ s :=
        Finset.mem_sdiff.mpr ⟨hU it (List.mem_cons_self _ _), hs⟩
      rw [Finset.sdiff_insert, Finset.card_erase_of_mem hmem]
      have hpos : 0 < (U \ s).card := Finset.card_pos.mpr ⟨it.2, hmem⟩
      simp only [List.length_singleton]
      omega

theorem diffLoop_terminates (li ri : Info) (verbose : Bool)
    (lf rf : String → String) (cp : Bool) (pr : List String → List String) :
    ∀ (fuel : Nat) (queue : List WorkItem) (seen : Finset KeyPair)
      (result : List String) (visited : List KeyPair),
      queue.length + 2 * ((pairUniverse li ri \ seen).card) < fuel →
      ∃ out, diffLoop li ri verbose lf rf cp pr fuel queue seen result visited =
        some out := by
  intro fuel
  induction fuel with
  | zero =>
    intro queue seen result visited h
    omega
  | succ fuel ih =>
    intro queue seen result visited h
    cases queue with
    | nil => exact ⟨.ok (result, visited, seen), rfl⟩
    | cons it rest =>
      cases hbl : getByKey li it.2.1 with
      | none =>
        refine ⟨.error (), ?_⟩
        simp only [diffLoop, hbl]
      | some ls =>
        cases hbr : getByKey ri it.2.2 with
        | none =>
          refine ⟨.error (), ?_⟩
          simp only [diffLoop, hbl, hbr]
        | some rs =>
          cases hdi : diffInternal it.1 ls li rs ri verbose lf rf cp pr with
          | error e =>
            refine ⟨.error e, ?_⟩
            simp only [diffLoop, hbl, hbr, hdi]
          | ok rc =>
            obtain ⟨report, changed⟩ := rc
            have hU : ∀ it2 ∈ sortItems changed.dedup,
                it2.2 ∈ pairUniverse li ri := by
              intro it2 h2
              have h3 : it2 ∈ changed := List.mem_dedup.mp (mem_sortItems.mp h2)
              obtain ⟨h4, h5⟩ := diffInternal_changed hdi it2 h3
              exact Finset.mem_product.mpr
                ⟨structRefs_subset_infoRefs hbl h4,
                 structRefs_subset_infoRefs hbr h5⟩
            have hE := enqueueChanged_measure (pairUniverse li ri)
              (sortItems changed.dedup) rest seen hU
            have hlt : (enqueueChanged (sortItems changed.dedup) rest seen).1.length +
                2 * ((pairUniverse li ri \
                  (enqueueChanged (sortItems changed.dedup) rest seen).2).card) <
                fuel := by
              simp only [List.length_cons] at h
              omega
            obtain ⟨out, hout⟩ := ih _ _ (result ++ report) (visited ++ [it.2]) hlt
            refine ⟨out, ?_⟩
            simp only [diffLoop, hbl, hbr, hdi]
            exact hout

/-- C3: for every pair of parsed indexes, any starting items and any
initial seen set, the breadth-first traversal terminates: with the stated
fuel (a bound derived from the finite set of reference pairs extractable
from the two indexes) `diffAndReturnSeen` always yields an outcome — the
worklist empties (or an exception propagates) after finitely many
iterations, because reference pairs are marked seen before enqueueing. -/
theorem claim_C3 (starting : List WorkItem) (li ri : Info) (verbose : Bool)
    (ft : Option (Option (String → String) × Option (String → String)))
    (cp : Bool) (pr : List String → List String) (seen : Finset KeyPair) :
    ∃ out, diffAndReturnSeen starting li ri verbose ft cp pr seen = some out := by
  unfold diffAndReturnSeen
  apply diffLoop_terminates
  unfold diffFuel
  omega

/-- C6 (amended): the dependency-alignment pass is attempted exactly for
field names whose suffix matches `Deps` or `deps` case-sensitively; for
every other field name (such as `DEPS`) the per-field comparison equals
the variant that never permutes the right-side value list. -/
theorem claim_C6 (label : String) (li : Info) (ls : Struct) (ri : Info)
    (rs : Struct) (k : String) (h : depsSuffixCondition k = false) :
    processKey label li ls ri rs k = processKeyNoAlign label li ls ri rs k := by
  unfold processKey processKeyNoAlign
  simp only [h, Bool.false_eq_true, if_false, if_neg]

/-- Witness for C6 at the concrete field name `DEPS` (which matches
`deps` only case-insensitively): the right-side list is not permuted. -/
theorem claim_C6_witness :
    depsSuffixCondition "DEPS" = false ∧
    processKey "n" depsLeftInfo depsPL depsRightInfo depsPR "DEPS" =
      processKeyNoAlign "n" depsLeftInfo depsPL depsRightInfo depsPR "DEPS" :=
  ⟨by decide, claim_C6 "n" depsLeftInfo depsPL depsRightInfo depsPR "DEPS"
    (by decide)⟩

/-- Counterexample to C6 as stated: `DEPS` matches `deps`
case-insensitively and the alignment pass would reorder the swapped
same-named references, yet `diffInternal` performs no alignment — its
report does not contain the name-aligned line. -/
theorem claim_C6_counterexample :
    pyEndsWith (pyLower "DEPS") "deps" = true ∧
    (alignDeps depsLeftInfo depsRightInfo
      (getRuleKeyRefs ["ruleKey(sha1=al)", "ruleKey(sha1=bl)"])
      (getRuleKeyRefs ["ruleKey(sha1=br)", "ruleKey(sha1=ar)"])).2 = true ∧
    ("  (DEPS): order of deps was name-aligned." ∈
      internalReport (diffInternal "n" depsPL depsLeftInfo depsPR depsRightInfo
        false defaultLeftFormat defaultRightFormat false noPaths)) = False := by
  refine ⟨by decide, by decide, ?_⟩
  simp only [eq_iff_iff, iff_false]
  decide

/-- C10: on `['Apple','Banana']` vs `['banana','apple']` the differ
returns the order-and-case-only banner followed by, sorted by lower-cased
key, the corrected-case pair for each entry. -/
theorem claim_C10 :
    kvdReport ["Apple", "Banana"] ["banana", "apple"] =
      [orderAndCaseOnlyMsg, "-[Apple]", "+[apple]", "-[Banana]", "+[banana]"] := by
  decide

/-- Counterexample to C9 as stated: two dangling references (extracted
identifiers absent from their indexes, hence nameless on both sides) make
`diffInternal` raise the modelled `AttributeError` instead of completing. -/
theorem claim_C9_counterexample :
    diffInternal "n" dangSL dangLeftInfo dangSR dangRightInfo false
      defaultLeftFormat defaultRightFormat false noPaths = .error () := by
  decide

theorem pairStep_raised {label k : String} {li ri : Info}
    {l r : Option (String × Option String)}
    (h : pairStep label k li ri l r = .raised) :
    ∃ lv lk rv rk, l = some (lv, some lk) ∧ r = some (rv, some rk) ∧
      (getByKey li lk = none ∨ getByKey ri rk = none) := by
  simp only [pairStep] at h
  split at h
  · cases h
  · split at h
    case _ leftKey rightKey heq1 heq2 =>
      split at h
      · cases h
      · split at h
        · split at h
          case _ ls2 rs2 heq3 heq4 => split at h <;> cases h
          case _ x y hne =>
            obtain ⟨lv, hlv⟩ := getD_snd_some heq1
            obtain ⟨rv, hrv⟩ := getD_snd_some heq2
            refine ⟨lv, leftKey, rv, rightKey, hlv, hrv, ?_⟩
            cases hbl : getByKey li leftKey with
            | none => exact Or.inl rfl
            | some ls2 =>
              cases hbr : getByKey ri rightKey with
              | none => exact Or.inr rfl
              | some rs2 =>
                rw [hbl, hbr] at hne
                exact absurd (hne ls2 rs2 rfl rfl) (fun f => f)
        · cases h
    case _ => cases h

theorem processPairs_ok {label k : String} {li ri : Info} :
    ∀ {pairs : List (Option (String × Option String) × Option (String × Option String))},
      (∀ lp rp, (lp, rp) ∈ pairs → pairStep label k li ri lp rp ≠ .raised) →
      ∃ res, processPairs label k li ri pairs = .ok res := by
  intro pairs
  induction pairs with
  | nil => intro _; exact ⟨([], []), rfl⟩
  | cons pr rest ih =>
    intro hnr
    obtain ⟨lp, rp⟩ := pr
    have hrest : ∀ lp2 rp2, (lp2, rp2) ∈ rest →
        pairStep label k li ri lp2 rp2 ≠ .raised :=
      fun lp2 rp2 h2 => hnr lp2 rp2 (List.mem_cons_of_mem _ h2)
    obtain ⟨res, hres⟩ := ih hrest
    simp only [processPairs]
    cases hps : pairStep label k li ri lp rp with
    | raised => exact absurd hps (hnr lp rp (List.mem_cons_self _ _))
    | skip => exact ⟨res, hres⟩
    | changed it2 =>
      rw [hres]
      exact ⟨(res.1, it2 :: res.2), rfl⟩
    | value p =>
      rw [hres]
      exact ⟨(p :: res.1, res.2), rfl⟩

theorem mapMExcept_ok {α β : Type} {f : α → Except Unit β} :
    ∀ {ks : List α}, (∀ a ∈ ks, ∃ b, f a = .ok b) →
      ∃ out, mapMExcept f ks = .ok out := by
  intro ks
  induction ks with
  | nil => intro _; exact ⟨[], rfl⟩
  | cons a as ih =>
    intro hok
    obtain ⟨b, hb⟩ := hok a (List.mem_cons_self _ _)
    obtain ⟨bs, hbs⟩ := ih (fun a2 h2 => hok a2 (List.mem_cons_of_mem _ h2))
    refine ⟨b :: bs, ?_⟩
    simp only [mapMExcept, hb, hbs]

theorem processKey_ok (label : String) (li : Info) (ls : Struct) (ri : Info)
    (rs : Struct) (k : String)
    (h1 : ∀ kk vals, lookupStruct ls kk = some vals → ∀ v ∈ vals,
      ∀ k2, extractRuleKeyRef v = some k2 → (getByKey li k2).isSome)
    (h2 : ∀ kk vals, lookupStruct rs kk = some vals → ∀ v ∈ vals,
      ∀ k2, extractRuleKeyRef v = some k2 → (getByKey ri k2).isSome) :
    ∃ res, processKey label li ls ri rs k = .ok res := by
  simp only [processKey]
  have hnr : ∀ lp rp, (lp, rp) ∈
      zipPad (getRuleKeyRefs ((lookupStruct ls (some k)).getD []))
        (if depsSuffixCondition k = true then
          alignDeps li ri (getRuleKeyRefs ((lookupStruct ls (some k)).getD []))
            (getRuleKeyRefs ((lookupStruct rs (some k)).getD []))
        else (getRuleKeyRefs ((lookupStruct rs (some k)).getD []), false)).1 →
      pairStep label k li ri lp rp ≠ .raised := by
    intro lp rp hmem hrai
    obtain ⟨lv, lk, rv, rk, hlv, hrv, hdang⟩ := pairStep_raised hrai
    obtain ⟨hma, hmb⟩ := zipPad_mem hmem
    have hla := hma _ hlv
    have hrb := hmb _ hrv
    have hrb2 : (rv, some rk) ∈
        getRuleKeyRefs ((lookupStruct rs (some k)).getD []) := by
      by_cases hdc : depsSuffixCondition k = true
      · rw [if_pos hdc] at hrb
        rcases alignDeps_mem hrb with h3 | h3
        · exact h3
        · cases (Prod.mk.injEq .. ▸ h3).2
      · rw [if_neg hdc] at hrb
        exact hrb
    rcases hdang with hd | hd
    · cases hll : lookupStruct ls (some k) with
      | none =>
        rw [hll] at hla
        simp only [Option.getD_none] at hla
        cases (getRuleKeyRefs_mem hla).1
      | some vals =>
        rw [hll] at hla
        simp only [Option.getD_some] at hla
        obtain ⟨hv, he⟩ := getRuleKeyRefs_mem hla
        have := h1 _ _ hll lv hv lk he
        rw [hd] at this
        cases this
    · cases hll : lookupStruct rs (some k) with
      | none =>
        rw [hll] at hrb2
        simp only [Option.getD_none] at hrb2
        cases (getRuleKeyRefs_mem hrb2).1
      | some vals =>
        rw [hll] at hrb2
        simp only [Option.getD_some] at hrb2
        obtain ⟨hv, he⟩ := getRuleKeyRefs_mem hrb2
        have := h2 _ _ hll rv hv rk he
        rw [hd] at this
        cases this
  obtain ⟨res, hres⟩ := processPairs_ok (fun lp rp hm => hnr lp rp hm)
  rw [hres]
  exact ⟨_, rfl⟩

/-- C9 (amended): non-verbose per-object comparison is total whenever
every `ruleKey(sha1=...)` reference occurring among either structure's
values resolves to a structure in its own index; a dangling reference can
make `diffInternal` raise (see the counterexample), so totality does not
extend to unresolvable references. -/
theorem claim_C9 (label : String) (ls : Struct) (li : Info) (rs : Struct)
    (ri : Info) (lf rf : String → String) (cp : Bool)
    (pr : List String → List String)
    (h1 : ∀ kk vals, lookupStruct ls kk = some vals → ∀ v ∈ vals,
      ∀ k2, extractRuleKeyRef v = some k2 → (getByKey li k2).isSome)
    (h2 : ∀ kk vals, lookupStruct rs kk = some vals → ∀ v ∈ vals,
      ∀ k2, extractRuleKeyRef v = some k2 → (getByKey ri k2).isSome) :
    ∃ out, diffInternal label ls li rs ri false lf rf cp pr = .ok out := by
  unfold diffInternal
  have hok : ∀ a ∈ (unionKeys ls rs).filterMap id,
      ∃ b, ((processKey label li ls ri rs a).map (fun r => (a, r))) = .ok b := by
    intro a _
    obtain ⟨res, hres⟩ := processKey_ok label li ls ri rs a h1 h2
    exact ⟨(a, res), by rw [hres]; rfl⟩
  obtain ⟨out, hout⟩ := mapMExcept_ok hok
  have hvl : verboseLine ls rs
      ((out.map (fun kr => kr.2.2.2)).flatten) false = .ok [] := by
    unfold verboseLine
    rw [if_neg (by simp)]
  simp only [hout, hvl]
  exact ⟨_, rfl⟩

theorem lookupStruct_mem_snd {s : Struct} {kk : Option String} {vals : List String}
    (h : lookupStruct s kk = some vals) : vals ∈ s.map Prod.snd := by
  unfold lookupStruct at h
  cases hf : s.find? (fun e => e.1 == kk) with
  | none => rw [hf] at h; cases h
  | some e =>
    rw [hf] at h
    simp only [Option.some.injEq] at h
    subst h
    exact List.mem_map_of_mem _ (List.mem_of_find?_eq_some hf)

/-- Witness for C9: on reference-free structures the comparison
completes without raising. -/
theorem claim_C9_witness :
    (diffInternal "n" plainS (Info.mk [] []) plainS (Info.mk [] []) false
      defaultLeftFormat defaultRightFormat false noPaths).isOk = true := by
  have hside : ∀ kk vals, lookupStruct plainS kk = some vals → ∀ v ∈ vals,
      ∀ k2, extractRuleKeyRef v = some k2 →
        (getByKey (Info.mk [] []) k2).isSome = true := by
    intro kk vals hl v hv k2 he
    have hm := lookupStruct_mem_snd hl
    have hvals : vals = ["x"] := by
      rcases List.mem_cons.mp hm with h1 | h1
      · exact h1
      · cases h1
    rw [hvals] at hv
    rcases List.mem_cons.mp hv with h1 | h1
    · subst h1
      have hx : extractRuleKeyRef "x" = none := by decide
      rw [hx] at he
      cases he
    · cases h1
  obtain ⟨out, hout⟩ := claim_C9 "n" plainS (Info.mk [] []) plainS
    (Info.mk [] []) defaultLeftFormat defaultRightFormat false noPaths
    hside hside
  rw [hout]
  rfl

/-- Witness for C4 at the spec's example: `['a','b','c']` vs
`['a','c','d']` yields only the formatted left-only `b` and right-only `d`
with no remaining-order line. -/
theorem claim_C4_witness :
    kvdReport ["a", "b", "c"] ["a", "c", "d"] = ["-[b]", "+[d]"] := by
  have h := claim_C4 ["a", "b", "c"] ["a", "c", "d"] (by decide) (by decide)
    (by decide)
  rw [h]
  decide

/-- Witness for C5: a concrete inconsistent entry list fails, and a
concrete consistent one succeeds with the expected binding. -/
theorem claim_C5_witness :
    makeKeyToStructureMap [("k", wsA), ("k", wsB)] = none ∧
    ((makeKeyToStructureMap [("k", wsA), ("k", wsA)]).map
      (fun m => m.lookup "k")) = some (some wsA) := by
  constructor
  · exact (claim_C5 [("k", wsA), ("k", wsB)] "k" wsA wsB).1
      (List.mem_cons_self _ _)
      (List.mem_cons_of_mem _ (List.mem_cons_self _ _)) (by decide)
  · have hcons : ∀ k2 X Y, (k2, X) ∈ [("k", wsA), ("k", wsA)] →
        (k2, Y) ∈ [("k", wsA), ("k", wsA)] → X = Y := by
      intro k2 X Y hX hY
      have h1 : X = wsA := by
        rcases List.mem_cons.mp hX with h | h
        · exact congrArg Prod.snd h
        · rcases List.mem_cons.mp h with h | h
          · exact congrArg Prod.snd h
          · cases h
      have h2 : Y = wsA := by
        rcases List.mem_cons.mp hY with h | h
        · exact congrArg Prod.snd h
        · rcases List.mem_cons.mp h with h | h
          · exact congrArg Prod.snd h
          · cases h
      rw [h1, h2]
    obtain ⟨m, hm, hl⟩ := (claim_C5 [("k", wsA), ("k", wsA)] "k" wsA wsA).2 hcons
    rw [hm]
    rw [show Option.map (fun m => List.lookup "k" m) (some m) =
      some (List.lookup "k" m) from rfl]
    rw [hl "k" wsA (List.mem_cons_self _ _)]

/-- Witness for C8: a name absent from the left index raises the
left-log `KeyError`. -/
theorem claim_C8_witness :
    diff "zzz" identLeftInfo identRightInfo false none false noPaths =
      .error (.keyError ("Left log does not contain " ++ "zzz")) := by
  obtain ⟨m, hm⟩ := (claim_C8 "zzz" identLeftInfo identRightInfo false none
    false noPaths).mpr (Or.inl (by decide))
  decide
